import Mathlib

/-!
# Verification of the umsg wire pipeline

A shallow embedding of the umsg embedded messaging library
(CRC-32/ISO-HDLC, COBS codec, framer, router, node) together with proofs
of the specification's claims about it.

Bytes are modelled as `Nat` (with `< 256` hypotheses where the source
relies on `uint8_t` range), buffers as `List Nat` of fixed length with
index writes modelled by `List.set` (out-of-range writes cannot occur on
the paths we reason about; `List.set` ignores them, matching the fact
that the C++ code never performs them).  Fallible operations return
`Option`.
-/

namespace umsg

/-- Error codes returned by library functions (`common.hpp`). -/
inductive Error : Type where
  | OK
  | FrameTooLarge
  | CobsDecodeFailed
  | CrcMismatch
  | FrameHeaderSize
  | MsgVersionMismatch
  | MsgIdUnknown
  | MsgLengthMismatch
  | InvalidParameter
  | TransportError
  deriving DecidableEq, Repr

/-- `kFrameHeaderSize` from `common.hpp`. -/
def kFrameHeaderSize : Nat := 8

/-- `cobsMaxOverhead` from `common.hpp`: `(n + 253) / 254`. -/
def cobsMaxOverhead (n : Nat) : Nat := (n + 253) / 254

/-- `maxFrameSize` from `common.hpp`. -/
def maxFrameSize (maxPayloadSize : Nat) : Nat := kFrameHeaderSize + maxPayloadSize

/-- `maxPacketSize` from `common.hpp`. -/
def maxPacketSize (maxPayloadSize : Nat) : Nat :=
  (maxFrameSize maxPayloadSize + 4) + cobsMaxOverhead (maxFrameSize maxPayloadSize + 4) + 1

/-! ## Marshalling helpers (`marshalling.hpp`)

The C++ uses shifts and bitwise or on disjoint byte lanes; on `Nat`,
`x <<< k = x * 2^k`, `x >>> k = x / 2^k` and the or of disjoint lanes is
their sum, so we write the arithmetic form directly. -/

/-- `read_u16_be` at offset `i` of a buffer. -/
def read_u16_at (l : List Nat) (i : Nat) : Nat :=
  l.getD i 0 * 256 + l.getD (i + 1) 0

/-- `read_u32_be` at offset `i` of a buffer. -/
def read_u32_at (l : List Nat) (i : Nat) : Nat :=
  l.getD i 0 * 2 ^ 24 + l.getD (i + 1) 0 * 2 ^ 16 + l.getD (i + 2) 0 * 2 ^ 8 + l.getD (i + 3) 0

/-- The four bytes stored by `write_u32_be v`. -/
def u32beBytes (v : Nat) : List Nat :=
  [v / 2 ^ 24 % 256, v / 2 ^ 16 % 256, v / 2 ^ 8 % 256, v % 256]

/-- The two bytes stored by `write_u16_be v`. -/
def u16beBytes (v : Nat) : List Nat :=
  [v / 2 ^ 8 % 256, v % 256]

/-! ## CRC-32/ISO-HDLC (`crc32.hpp`) -/

/-- One bit step of the reflected CRC-32 algorithm:
`crc & 1 ? (crc >> 1) ^ 0xEDB88320 : crc >> 1`. -/
def crc32Round (crc : Nat) : Nat :=
  if crc % 2 = 1 then (crc / 2) ^^^ 0xEDB88320 else crc / 2

/-- Absorb one byte: `crc ^= b` followed by eight bit rounds. -/
def crc32Byte (crc b : Nat) : Nat :=
  (List.range 8).foldl (fun c _ => crc32Round c) (crc ^^^ b)

/-- `crc32_iso_hdlc` over a byte list. -/
def crc32_iso_hdlc (data : List Nat) : Nat :=
  (data.foldl crc32Byte 0xFFFFFFFF) ^^^ 0xFFFFFFFF

/-- The eight bit rounds of `crc32Byte`, as a function of the pre-xored
accumulator (proof-side; `crc32Byte c b = crc32Rounds8 (c ^^^ b)`). -/
def crc32Rounds8 (x : Nat) : Nat :=
  (List.range 8).foldl (fun c _ => crc32Round c) x

/-! ## COBS codec (`cobs.hpp`) -/

/-- State of the incremental COBS encoder.  `out` is the output buffer
(contents of all `cap` cells). -/
structure CobsEncoder : Type where
  out : List Nat
  cap : Nat
  codeIndex : Nat
  writeIndex : Nat
  code : Nat
  deriving Repr

namespace CobsEncoder

/-- `CobsEncoder::begin`.  The capacity is the buffer length; a null
pointer cannot arise in the list model, so the failure condition is
`cap == 0`. -/
def begin (output : List Nat) : Option CobsEncoder :=
  if output.length = 0 then none
  else some { out := output.set 0 0, cap := output.length,
              codeIndex := 0, writeIndex := 1, code := 1 }

/-- `CobsEncoder::put`. -/
def put (e : CobsEncoder) (b : Nat) : Option CobsEncoder :=
  if b = 0 then
    let out1 := e.out.set e.codeIndex e.code
    if e.writeIndex ≥ e.cap then none
    else some { out := out1, cap := e.cap, codeIndex := e.writeIndex,
                writeIndex := e.writeIndex + 1, code := 1 }
  else
    if e.writeIndex ≥ e.cap then none
    else
      let out1 := e.out.set e.writeIndex b
      let wi := e.writeIndex + 1
      let code1 := e.code + 1
      if code1 = 0xFF then
        let out2 := out1.set e.codeIndex code1
        if wi ≥ e.cap then none
        else some { out := out2, cap := e.cap, codeIndex := wi,
                    writeIndex := wi + 1, code := 1 }
      else
        some { out := out1, cap := e.cap, codeIndex := e.codeIndex,
               writeIndex := wi, code := code1 }

/-- Fold `put` over a list of input bytes. -/
def puts (e : CobsEncoder) (l : List Nat) : Option CobsEncoder :=
  match l with
  | [] => some e
  | b :: rest =>
    match e.put b with
    | none => none
    | some e1 => e1.puts rest

/-- `CobsEncoder::end`: store the final code byte, report `writeIndex`. -/
def fin (e : CobsEncoder) : List Nat × Nat :=
  (e.out.set e.codeIndex e.code, e.writeIndex)

end CobsEncoder

/-- `cobsEncode2`: encode `inputA ++ inputB` into `output`
(null-pointer checks are not representable for lists). -/
def cobsEncode2 (inputA inputB output : List Nat) : Option (List Nat × Nat) :=
  match CobsEncoder.begin output with
  | none => none
  | some e =>
    match e.puts inputA with
    | none => none
    | some e1 =>
      match e1.puts inputB with
      | none => none
      | some e2 => some e2.fin

/-- `cobsEncode`: single-input wrapper. -/
def cobsEncode (input output : List Nat) : Option (List Nat × Nat) :=
  cobsEncode2 input [] output

/-- Copy `k` bytes from index `r` to index `w` inside `buf`
(the decoder's inner copy loop). -/
def copySeg (buf : List Nat) (r w k : Nat) : List Nat :=
  match k with
  | 0 => buf
  | k + 1 => copySeg (buf.set w (buf.getD r 0)) (r + 1) (w + 1) k

/-- The decoder loop of `cobsDecodeInPlace`.  `fuel` is a structural
termination counter; since every iteration consumes at least the code
byte, `fuel = encodedLength` always suffices (the `fuel = 0, ri < encLen`
branch is unreachable from `cobsDecodeInPlace`). -/
def decodeLoop (fuel : Nat) (buf : List Nat) (encLen ri wi : Nat) :
    Option (List Nat × Nat) :=
  match fuel with
  | 0 => if ri < encLen then none else some (buf, wi)
  | fuel + 1 =>
    if ri < encLen then
      let code := buf.getD ri 0
      if code = 0 then none
      else if ri + code ≤ encLen then
        -- the per-byte underflow check of the source's copy loop succeeds
        -- exactly when all `code - 1` data bytes are present
        let buf1 := copySeg buf (ri + 1) wi (code - 1)
        let ri1 := ri + code
        let wi1 := wi + (code - 1)
        if code ≠ 0xFF ∧ ri1 < encLen then
          decodeLoop fuel (buf1.set wi1 0) encLen ri1 (wi1 + 1)
        else
          decodeLoop fuel buf1 encLen ri1 wi1
      else none
    else some (buf, wi)

/-- `cobsDecodeInPlace buffer encodedLength`: returns the mutated buffer
and `decodedLength` on success. -/
def cobsDecodeInPlace (buffer : List Nat) (encodedLength : Nat) :
    Option (List Nat × Nat) :=
  decodeLoop encodedLength buffer encodedLength 0 0

/-! ### Functional description of the encoder (proof-side)

`cobsStep` tracks the pair (finished encoded groups, pending non-zero
run); folding it over the input and closing the final group reproduces
exactly the bytes the incremental encoder writes. -/

/-- One input byte of the functional COBS encoder. -/
def cobsStep : List Nat × List Nat → Nat → List Nat × List Nat
  | (f, run), b =>
    if b = 0 then (f ++ (run.length + 1) :: run, [])
    else if run.length = 253 then (f ++ 255 :: (run ++ [b]), [])
    else (f, run ++ [b])

/-- Fold of `cobsStep` from the empty state. -/
def cobsSpecAux (S : List Nat) : List Nat × List Nat := S.foldl cobsStep ([], [])

/-- The byte string produced by COBS-encoding `S` (without delimiter). -/
def cobsSpec (S : List Nat) : List Nat :=
  (cobsSpecAux S).1 ++ ((cobsSpecAux S).2.length + 1) :: (cobsSpecAux S).2

/-- Correspondence between an encoder state and the functional state
(finished groups `f`, pending run `run`): the indices, the pending code
value and the buffer contents below `writeIndex` (except the pending
code cell at `codeIndex`) are determined by `(f, run)`. -/
def EncInv (e : CobsEncoder) (f run : List Nat) : Prop :=
  e.cap = e.out.length ∧
  e.codeIndex = f.length ∧
  e.writeIndex = f.length + run.length + 1 ∧
  e.code = run.length + 1 ∧
  run.length ≤ 253 ∧
  e.out.take f.length = f ∧
  (e.out.drop (f.length + 1)).take run.length = run ∧
  e.writeIndex ≤ e.cap

/-- Non-mutating description of the COBS decode loop: decodes the
remaining encoded suffix into a fresh output list. -/
def ghostDec : List Nat → Option (List Nat)
  | [] => some []
  | code :: rest =>
    if code = 0 then none
    else if code - 1 ≤ rest.length then
      match ghostDec (rest.drop (code - 1)) with
      | none => none
      | some t =>
        if code ≠ 255 ∧ rest.drop (code - 1) ≠ [] then
          some (rest.take (code - 1) ++ 0 :: t)
        else some (rest.take (code - 1) ++ t)
    else none
termination_by l => l.length
decreasing_by simp [List.length_drop]; omega

/-- Number of 0xFF code groups in an encoding (every group, as the spec
sentence counts them).  `fuel` is a structural counter; `ffAll` passes
the buffer length, which always suffices. -/
def ffAllAux : Nat → List Nat → Nat
  | 0, _ => 0
  | _ + 1, [] => 0
  | fuel + 1, code :: rest =>
    if code = 0 then 0
    else if code - 1 ≤ rest.length then
      (if code = 255 then 1 else 0) + ffAllAux fuel (rest.drop (code - 1))
    else 0

/-- Number of 0xFF code groups in the parse of `l`. -/
def ffAll (l : List Nat) : Nat := ffAllAux l.length l

/-- Number of non-final 0xFF code groups in the parse of `l`. -/
def ffNFAux : Nat → List Nat → Nat
  | 0, _ => 0
  | _ + 1, [] => 0
  | fuel + 1, code :: rest =>
    if code = 0 then 0
    else if code - 1 ≤ rest.length then
      (if code = 255 ∧ rest.drop (code - 1) ≠ [] then 1 else 0) +
        ffNFAux fuel (rest.drop (code - 1))
    else 0

/-- Number of non-final 0xFF code groups in the parse of `l`. -/
def ffNF (l : List Nat) : Nat := ffNFAux l.length l

/-! ### Decoder write/state instrumentation (for the in-place safety claim)

`decodeWrites` records, for every byte the decoder writes into the shared
buffer, the pair (write position, number of encoded bytes consumed at the
moment of the write).  `decodeStates` records the (readIndex, writeIndex)
pair at every head of the decode loop.  Both mirror `decodeLoop` exactly,
including the bytes copied before an underflow is detected. -/

/-- Write events of the decoder's inner copy loop: byte `j` is written at
`w + j` right after the read that made `r + j + 1` bytes consumed. -/
def copyEvents (r w k : Nat) : List (Nat × Nat) :=
  match k with
  | 0 => []
  | k + 1 => (w, r + 1) :: copyEvents (r + 1) (w + 1) k

/-- All write events of `decodeLoop`. -/
def decodeWrites (fuel : Nat) (buf : List Nat) (encLen ri wi : Nat) :
    List (Nat × Nat) :=
  match fuel with
  | 0 => []
  | fuel + 1 =>
    if ri < encLen then
      let code := buf.getD ri 0
      if code = 0 then []
      else if ri + code ≤ encLen then
        let buf1 := copySeg buf (ri + 1) wi (code - 1)
        let ri1 := ri + code
        let wi1 := wi + (code - 1)
        copyEvents ri wi (code - 1) ++
          (if code ≠ 0xFF ∧ ri1 < encLen then
            (wi1, ri1) :: decodeWrites fuel (buf1.set wi1 0) encLen ri1 (wi1 + 1)
          else decodeWrites fuel buf1 encLen ri1 wi1)
      else copyEvents ri wi (encLen - (ri + 1))
    else []

/-- The (readIndex, writeIndex) pairs at every head of the decode loop. -/
def decodeStates (fuel : Nat) (buf : List Nat) (encLen ri wi : Nat) :
    List (Nat × Nat) :=
  (ri, wi) ::
    match fuel with
    | 0 => []
    | fuel + 1 =>
      if ri < encLen then
        let code := buf.getD ri 0
        if code = 0 then []
        else if ri + code ≤ encLen then
          let buf1 := copySeg buf (ri + 1) wi (code - 1)
          let ri1 := ri + code
          let wi1 := wi + (code - 1)
          if code ≠ 0xFF ∧ ri1 < encLen then
            decodeStates fuel (buf1.set wi1 0) encLen ri1 (wi1 + 1)
          else decodeStates fuel buf1 encLen ri1 wi1
        else []
      else []

/-! ## Framer (`framer.hpp`) -/

/-- Write `src` byte-by-byte starting at index `i` (a sequential copy
loop as the C++ performs it). -/
def writeBytes (l : List Nat) (i : Nat) (src : List Nat) : List Nat :=
  match src with
  | [] => l
  | b :: rest => writeBytes (l.set i b) (i + 1) rest

/-- Receive-side state of a `Framer`.  The callback is modelled as an
optional function from the frame bytes to the user's returned error. -/
structure FramerState : Type where
  rxBuffer : List Nat
  rxIndex : Nat
  cb : Option (List Nat → Error)

/-- `Framer::emitPacket`: invoke the registered callback, if any; the
second component records the invocation (the frame span passed). -/
def emitPacket (s : FramerState) (frame : List Nat) : Error × List (List Nat) :=
  match s.cb with
  | some f => (f frame, [frame])
  | none => (Error.OK, [])

/-- `Framer::createPacket`: append CRC32, COBS-encode, append delimiter.
`packetBuf.length` is the capacity-in; returns the written buffer and the
length-out. -/
def createPacket (frame packetBuf : List Nat) : Error × List Nat × Nat :=
  let outCapacity := packetBuf.length
  if outCapacity < 2 then (Error.InvalidParameter, packetBuf, outCapacity)
  else
    let crc := crc32_iso_hdlc frame
    let crcBytes := u32beBytes crc
    match cobsEncode2 frame crcBytes packetBuf with
    | none => (Error.InvalidParameter, packetBuf, outCapacity)
    | some (out, encodedLength) =>
      if encodedLength ≥ outCapacity then (Error.InvalidParameter, out, outCapacity)
      else (Error.OK, out.set encodedLength 0, encodedLength + 1)

/-- `Framer::processByte`.  On a decode failure the C++ leaves the
partially mutated receive buffer behind; since `rxIndex` is reset, those
cells are overwritten before ever being read again, so the model keeps
the pre-decode buffer there (observationally equal). -/
def processByte (MaxPacketSize : Nat) (s : FramerState) (b : Nat) :
    FramerState × Error × List (List Nat) :=
  if b = 0 then
    if s.rxIndex = 0 then (s, Error.OK, [])
    else
      match cobsDecodeInPlace s.rxBuffer s.rxIndex with
      | none => ({ s with rxIndex := 0 }, Error.CobsDecodeFailed, [])
      | some (buf, decodedLength) =>
        let s1 : FramerState := { s with rxBuffer := buf, rxIndex := 0 }
        if decodedLength < 4 then (s1, Error.FrameHeaderSize, [])
        else
          let frameLength := decodedLength - 4
          let receivedCrc := read_u32_at buf frameLength
          let computedCrc := crc32_iso_hdlc (buf.take frameLength)
          if receivedCrc ≠ computedCrc then (s1, Error.CrcMismatch, [])
          else (s1, emitPacket s1 (buf.take frameLength))
  else
    if s.rxIndex ≥ MaxPacketSize then
      ({ s with rxIndex := 0 }, Error.FrameTooLarge, [])
    else
      ({ s with rxBuffer := s.rxBuffer.set s.rxIndex b, rxIndex := s.rxIndex + 1 },
        Error.OK, [])

/-- Feed a byte sequence; collects the per-byte results and all callback
invocations in order. -/
def processBytes (MaxPacketSize : Nat) (s : FramerState) (l : List Nat) :
    FramerState × List Error × List (List Nat) :=
  match l with
  | [] => (s, [], [])
  | b :: rest =>
    let r := processByte MaxPacketSize s b
    let r2 := processBytes MaxPacketSize r.1 rest
    (r2.1, r.2.1 :: r2.2.1, r.2.2 ++ r2.2.2)

/-! ## Router (`router.hpp`) -/

/-- A handler table slot.  The stored callback (object, member-pointer
bytes and thunk) is abstracted to a value of type `κ`; `cb = none`
models a null `cbThunk`. -/
structure HSlot (κ : Type) : Type where
  used : Bool
  msgId : Nat
  cb : Option κ

/-- "At most one used slot per message id" (proof-side invariant of the
handler table). -/
def routerInv {κ : Type} (handlers : List (HSlot κ)) : Prop :=
  handlers.Pairwise (fun a b => a.used = true → b.used = true → a.msgId ≠ b.msgId)

/-- The dispatch scan of `Router::onPacket`: first used slot whose
`msgId` matches. -/
def findSlot {κ : Type} : List (HSlot κ) → Nat → Option (HSlot κ)
  | [], _ => none
  | s :: rest, id => if s.used ∧ s.msgId = id then some s else findSlot rest id

/-- First pass of `Router::registerHandler`: overwrite the slot holding
`msgId`, if any. -/
def updatePass {κ : Type} : List (HSlot κ) → Nat → κ → Option (List (HSlot κ))
  | [], _, _ => none
  | s :: rest, id, k =>
    if s.used ∧ s.msgId = id then some ({ s with cb := some k } :: rest)
    else (updatePass rest id k).map (s :: ·)

/-- Second pass of `Router::registerHandler`: insert into the first free
slot, if any. -/
def insertPass {κ : Type} : List (HSlot κ) → Nat → κ → Option (List (HSlot κ))
  | [], _, _ => none
  | s :: rest, id, k =>
    if ¬ s.used then some ({ used := true, msgId := id, cb := some k } :: rest)
    else (insertPass rest id k).map (s :: ·)

/-- `Router::registerHandler` (both the raw and the typed flavor store a
callback value into the table with exactly this two-pass structure). -/
def registerHandler {κ : Type} (handlers : List (HSlot κ)) (msgId : Nat) (k : κ) :
    List (HSlot κ) × Error :=
  match updatePass handlers msgId k with
  | some h => (h, Error.OK)
  | none =>
    match insertPass handlers msgId k with
    | some h => (h, Error.OK)
    | none => (handlers, Error.InvalidParameter)

/-- `Router::onPacket`, parametric in how a stored callback value is
invoked; the second component records the slot invocation (callback
value, payload sub-span, msg_hash). -/
def onPacket {κ : Type} (invoke : κ → List Nat → Nat → Error)
    (expectedVersion : Nat) (handlers : List (HSlot κ)) (frame : List Nat) :
    Error × List (κ × List Nat × Nat) :=
  if frame.length < kFrameHeaderSize then (Error.FrameHeaderSize, [])
  else if frame.getD 0 0 ≠ expectedVersion then (Error.MsgVersionMismatch, [])
  else
    let msgId := frame.getD 1 0
    let msgHash := read_u32_at frame 2
    let payloadLen := read_u16_at frame 6
    if frame.length ≠ kFrameHeaderSize + payloadLen then (Error.MsgLengthMismatch, [])
    else
      let payload := frame.drop kFrameHeaderSize
      match findSlot handlers msgId with
      | none => (Error.MsgIdUnknown, [])
      | some s =>
        match s.cb with
        | some k => (invoke k payload msgHash, [(k, payload, msgHash)])
        | none => (Error.OK, [])

/-- `Router::memberThunkMsg`: the typed-handler trampoline.  `decode` is
`Msg::decode` (`none` = decode returned false); the second component is
the decoded message the user handler was called with (`none` = user
handler not called). -/
def memberThunkMsg {μ : Type} (kMsgHash : Nat) (decode : List Nat → Option μ)
    (handler : μ → Error) (payload : List Nat) (msgHash : Nat) : Error × Option μ :=
  if msgHash ≠ kMsgHash then (Error.MsgVersionMismatch, none)
  else
    match decode payload with
    | none => (Error.InvalidParameter, none)
    | some m => (handler m, some m)

/-- `Router::buildFrame`.  `outFrame.length` is capacity-in; returns the
written buffer and length-out. -/
def buildFrame (expectedVersion msgId msgHash : Nat) (payload outFrame : List Nat) :
    Error × List Nat × Nat :=
  if payload.length > 0xFFFF then (Error.InvalidParameter, outFrame, outFrame.length)
  else if outFrame.length < kFrameHeaderSize + payload.length then
    (Error.InvalidParameter, outFrame, outFrame.length)
  else
    (Error.OK,
     writeBytes outFrame 0
       ([expectedVersion, msgId] ++ u32beBytes msgHash ++ u16beBytes payload.length ++ payload),
     kFrameHeaderSize + payload.length)

/-! ## Node (`node.hpp`) -/

/-- TX-side state of a `Node`: the frame and packet scratch buffers and
the callback-wiring flag. -/
structure NodeState : Type where
  txFrame : List Nat
  txPacket : List Nat
  wired : Bool

/-- `Node::publish(msgId, msgHash, payload)`.  `wr` is the transport's
`write`; the third component is the byte sequence handed to it (`none`
if `write` was never called). -/
def publish (wr : List Nat → Bool) (expectedVersion : Nat) (st : NodeState)
    (msgId msgHash : Nat) (payload : List Nat) : NodeState × Error × Option (List Nat) :=
  if ¬ st.wired then (st, Error.InvalidParameter, none)
  else
    match buildFrame expectedVersion msgId msgHash payload st.txFrame with
    | (e, fbuf, flen) =>
      if e ≠ Error.OK then ({ st with txFrame := fbuf }, e, none)
      else
        match createPacket (fbuf.take flen) st.txPacket with
        | (e2, pbuf, plen) =>
          if e2 ≠ Error.OK then ({ st with txFrame := fbuf, txPacket := pbuf }, e2, none)
          else
            let st2 : NodeState := { st with txFrame := fbuf, txPacket := pbuf }
            if wr (pbuf.take plen) then (st2, Error.OK, some (pbuf.take plen))
            else (st2, Error.TransportError, some (pbuf.take plen))

/-- `Node::publish` invoked on a payload span that aliases the packet
scratch (`data = txPacket_`, `length = plen`): the span is dereferenced
by `buildFrame`'s copy loop, before the packet scratch is next written,
so the view is read off `st.txPacket` at that point. -/
def publishAliased (wr : List Nat → Bool) (expectedVersion : Nat) (st : NodeState)
    (msgId msgHash plen : Nat) : NodeState × Error × Option (List Nat) :=
  if ¬ st.wired then (st, Error.InvalidParameter, none)
  else
    let payload := st.txPacket.take plen
    match buildFrame expectedVersion msgId msgHash payload st.txFrame with
    | (e, fbuf, flen) =>
      if e ≠ Error.OK then ({ st with txFrame := fbuf }, e, none)
      else
        match createPacket (fbuf.take flen) st.txPacket with
        | (e2, pbuf, plen2) =>
          if e2 ≠ Error.OK then ({ st with txFrame := fbuf, txPacket := pbuf }, e2, none)
          else
            let st2 : NodeState := { st with txFrame := fbuf, txPacket := pbuf }
            if wr (pbuf.take plen2) then (st2, Error.OK, some (pbuf.take plen2))
            else (st2, Error.TransportError, some (pbuf.take plen2))

/-- `Node::publish<Msg>(msgId, msg)`: `msg.encode` writes its bytes into
the packet scratch (capacity `MaxPayloadSize`), and the resulting
aliased span is published with `Msg::kMsgHash`.  `encodeResult` is the
byte sequence `msg.encode` produced (`none` = encode returned false, in
which case the span, hence the scratch, is unchanged). -/
def publishTyped (wr : List Nat → Bool) (expectedVersion : Nat) (st : NodeState)
    (msgId kMsgHash : Nat) (encodeResult : Option (List Nat)) :
    NodeState × Error × Option (List Nat) :=
  match encodeResult with
  | none => (st, Error.InvalidParameter, none)
  | some p =>
    let st1 : NodeState := { st with txPacket := writeBytes st.txPacket 0 p }
    publishAliased wr expectedVersion st1 msgId kMsgHash p.length

/-! # Proofs -/

/-! ## List index-write helpers -/

theorem take_set_of_le (l : List Nat) (i j v : Nat) (h : j ≤ i) :
    (l.set i v).take j = l.take j := by
  apply List.ext_getElem (by simp)
  intro n h1 h2
  have hn : n < j ⊓ l.length := by simpa using h1
  simp only [List.getElem_take]
  exact List.getElem_set_ne (by omega) (by simp; omega)

theorem drop_set_of_lt (l : List Nat) (i j v : Nat) (h : i < j) :
    (l.set i v).drop j = l.drop j := by
  apply List.ext_getElem (by simp)
  intro n h1 h2
  simp only [List.getElem_drop]
  exact List.getElem_set_ne (by omega) (by simp at h1 ⊢; omega)

theorem take_succ_set (l : List Nat) (i v : Nat) (h : i < l.length) :
    (l.set i v).take (i + 1) = l.take i ++ [v] := by
  apply List.ext_getElem (by simp; omega)
  intro n h1 h2
  have hn1 : n < (i + 1) ⊓ l.length := by simpa using h1
  simp only [List.getElem_take]
  rcases Nat.lt_or_ge n i with hn | hn
  · rw [List.getElem_set_ne (by omega) (by simp; omega),
      List.getElem_append_left (by simp; omega)]
    simp only [List.getElem_take]
  · have hni : n = i := by omega
    subst hni
    rw [List.getElem_set_self (by simp; omega),
      List.getElem_append_right (by simp)]
    simp

theorem writeBytes_closed (src : List Nat) : ∀ (l : List Nat) (i : Nat),
    i + src.length ≤ l.length →
    writeBytes l i src = l.take i ++ src ++ l.drop (i + src.length) := by
  induction src with
  | nil => intro l i h; simp [writeBytes]
  | cons b rest ih =>
    intro l i h
    simp only [writeBytes]
    rw [ih (l.set i b) (i + 1) (by simp at h ⊢; omega)]
    rw [take_succ_set _ _ _ (by simp at h; omega),
      drop_set_of_lt _ _ _ _ (by omega)]
    have harith : i + 1 + rest.length = i + (rest.length + 1) := by omega
    rw [harith]
    simp [List.append_assoc]

theorem copySeg_closed (k : Nat) : ∀ (l : List Nat) (r w : Nat), w ≤ r →
    r + k ≤ l.length →
    copySeg l r w k = l.take w ++ (l.drop r).take k ++ l.drop (w + k) := by
  induction k with
  | zero => intro l r w _ _; simp [copySeg]
  | succ k ih =>
    intro l r w hwr hrk
    have hr : r < l.length := by omega
    have hw : w < l.length := by omega
    simp only [copySeg]
    rw [ih _ _ _ (by omega) (by simp; omega)]
    rw [take_succ_set _ _ _ hw]
    rw [drop_set_of_lt _ _ _ _ (by omega), drop_set_of_lt _ _ _ _ (by omega)]
    rw [List.getD_eq_getElem _ _ hr]
    have harith : w + 1 + k = w + (k + 1) := by omega
    rw [harith]
    conv_rhs => rw [List.drop_eq_getElem_cons hr, List.take_succ_cons]
    simp [List.append_assoc]

theorem copySeg_length (k : Nat) : ∀ (l : List Nat) (r w : Nat),
    (copySeg l r w k).length = l.length := by
  induction k with
  | zero => intro l r w; simp [copySeg]
  | succ k ih => intro l r w; simp only [copySeg]; rw [ih]; simp

theorem drop_take_set_outside (l : List Nat) (p v i k : Nat) (h : p < i ∨ i + k ≤ p) :
    ((l.set p v).drop i).take k = (l.drop i).take k := by
  apply List.ext_getElem (by simp)
  intro n h1 h2
  have hn : n < k ⊓ (l.length - i) := by simpa using h1
  simp only [List.getElem_take, List.getElem_drop]
  exact List.getElem_set_ne (by omega) (by simp; omega)

theorem drop_take_one (l : List Nat) (i : Nat) (h : i < l.length) :
    (l.drop i).take 1 = [l.getD i 0] := by
  rw [List.drop_eq_getElem_cons h, List.getD_eq_getElem _ _ h,
    show (1 : Nat) = 0 + 1 from rfl, List.take_succ_cons, List.take_zero]

theorem getD_set_self (l : List Nat) (i v : Nat) (h : i < l.length) :
    (l.set i v).getD i 0 = v := by
  rw [List.getD_eq_getElem _ _ (by simp [h]), List.getElem_set_self]

/-! ## The incremental encoder computes `cobsSpec` -/

theorem cobsStep_total (f run : List Nat) (b : Nat) :
    f.length + run.length + 1 ≤
      (cobsStep (f, run) b).1.length + (cobsStep (f, run) b).2.length := by
  simp only [cobsStep]
  split_ifs <;> simp <;> omega

theorem cobsFold_total (S : List Nat) : ∀ (st : List Nat × List Nat),
    st.1.length + st.2.length ≤
      (S.foldl cobsStep st).1.length + (S.foldl cobsStep st).2.length := by
  induction S with
  | nil => intro st; simp
  | cons b rest ih =>
    intro st
    rcases st with ⟨f, run⟩
    simp only [List.foldl_cons]
    have h1 := cobsStep_total f run b
    have h2 := ih (cobsStep (f, run) b)
    omega

theorem close_group (out f run : List Nat) (hf : out.take f.length = f)
    (hr : (out.drop (f.length + 1)).take run.length = run)
    (hb : f.length + run.length + 1 ≤ out.length) :
    (out.set f.length (run.length + 1)).take (f.length + (run.length + 1)) =
      f ++ (run.length + 1) :: run := by
  rw [List.take_add]
  rw [take_set_of_le _ _ _ _ le_rfl, hf]
  congr 1
  have hfl2 : f.length < (out.set f.length (run.length + 1)).length := by simp; omega
  rw [List.drop_eq_getElem_cons hfl2, List.getElem_set_self hfl2]
  rw [List.take_succ_cons]
  rw [drop_take_set_outside _ _ _ _ _ (Or.inl (by omega)), hr]

theorem close_group_flush (out f run : List Nat) (b : Nat)
    (hf : out.take f.length = f)
    (hr : (out.drop (f.length + 1)).take run.length = run)
    (hrun : run.length = 253)
    (hb : f.length + 255 ≤ out.length) :
    ((out.set (f.length + 254) b).set f.length 255).take (f.length + 255) =
      f ++ 255 :: (run ++ [b]) := by
  rw [List.take_add]
  rw [take_set_of_le _ _ _ _ le_rfl, take_set_of_le _ _ _ _ (by omega), hf]
  congr 1
  have hfl2 : f.length < (((out.set (f.length + 254) b).set f.length 255)).length := by
    simp; omega
  rw [List.drop_eq_getElem_cons hfl2, List.getElem_set_self hfl2]
  have t255 : ∀ (a : Nat) (xs : List Nat), List.take 255 (a :: xs) = a :: List.take 254 xs := by
    intro a xs; rfl
  rw [t255]
  congr 1
  rw [drop_take_set_outside _ _ _ _ _ (Or.inl (by omega))]
  have t254 : ∀ (xs : List Nat), List.take 254 xs = List.take 253 xs ++ List.take 1 (xs.drop 253) := by
    intro xs
    have h := List.take_add xs 253 1
    norm_num at h
    exact h
  rw [t254]
  rw [drop_take_set_outside _ _ _ _ _ (Or.inr (by omega))]
  rw [hrun] at hr
  rw [hr]
  rw [List.drop_drop]
  have harith : f.length + 1 + 253 = f.length + 254 := by omega
  rw [harith]
  rw [drop_take_one _ _ (by simp; omega)]
  rw [getD_set_self _ _ _ (by omega)]

theorem extend_run (out f run : List Nat) (b : Nat)
    (hr : (out.drop (f.length + 1)).take run.length = run)
    (hb : f.length + run.length + 1 < out.length) :
    ((out.set (f.length + run.length + 1) b).drop (f.length + 1)).take (run.length + 1) =
      run ++ [b] := by
  rw [List.take_add]
  rw [drop_take_set_outside _ _ _ _ _ (Or.inr (by omega)), hr]
  congr 1
  rw [List.drop_drop]
  have harith : f.length + 1 + run.length = f.length + run.length + 1 := by omega
  rw [harith]
  rw [drop_take_one _ _ (by simp; omega)]
  rw [getD_set_self _ _ _ (by omega)]

theorem put_inv (e : CobsEncoder) (f run : List Nat) (b : Nat) (hinv : EncInv e f run)
    (hcap : (cobsStep (f, run) b).1.length + (cobsStep (f, run) b).2.length + 1 ≤ e.cap) :
    ∃ e1, e.put b = some e1 ∧
      EncInv e1 (cobsStep (f, run) b).1 (cobsStep (f, run) b).2 ∧
      e1.cap = e.cap ∧ e1.out.length = e.out.length := by
  obtain ⟨hc, hci, hwi, hcode, hrun, hfin, hrw, hwc⟩ := hinv
  by_cases hb : b = 0
  · subst hb
    have hstep : cobsStep (f, run) 0 = (f ++ (run.length + 1) :: run, []) := by
      simp [cobsStep]
    rw [hstep] at hcap ⊢
    simp only [List.length_append, List.length_cons, List.length_nil] at hcap
    have hlt : e.writeIndex < e.cap := by omega
    refine ⟨⟨e.out.set e.codeIndex e.code, e.cap, e.writeIndex, e.writeIndex + 1, 1⟩,
      ?_, ?_, rfl, by simp⟩
    · simp only [CobsEncoder.put, if_true]
      rw [if_neg (by omega)]
    · refine ⟨by simp [hc], by simp; omega, by simp; omega, by simp, by simp,
        ?_, by simp, by simp; omega⟩
      simp only [List.length_append, List.length_cons]
      have harith : f.length + (run.length + 1) = f.length + (run.length + 1) := rfl
      rw [hci, hcode]
      have hgoal := close_group e.out f run hfin hrw (by omega)
      have harith2 : f.length + (run.length + 1) = f.length + (run.length + 1) := rfl
      simpa using hgoal
  · by_cases hflush : run.length = 253
    · have hstep : cobsStep (f, run) b = (f ++ 255 :: (run ++ [b]), []) := by
        simp [cobsStep, hb, hflush]
      rw [hstep] at hcap ⊢
      simp only [List.length_append, List.length_cons, List.length_nil] at hcap
      have hlt : e.writeIndex < e.cap := by omega
      have hlt2 : e.writeIndex + 1 < e.cap := by omega
      refine ⟨⟨(e.out.set e.writeIndex b).set e.codeIndex (e.code + 1), e.cap,
        e.writeIndex + 1, e.writeIndex + 2, 1⟩, ?_, ?_, rfl, by simp⟩
      · simp only [CobsEncoder.put]
        rw [if_neg hb, if_neg (by omega), if_pos (by rw [hcode, hflush] : e.code + 1 = 0xFF),
          if_neg (by omega)]
      · refine ⟨by simp [hc], by simp; omega, by simp; omega, by simp, by simp,
          ?_, by simp, by simp; omega⟩
        rw [hci, hwi, hcode]
        have hc255 : run.length + 1 + 1 = 255 := by omega
        have hw254 : f.length + run.length + 1 = f.length + 254 := by omega
        rw [hc255, hw254]
        have hgoal := close_group_flush e.out f run b hfin hrw hflush (by omega)
        have hlen : (f ++ 255 :: (run ++ [b])).length = f.length + 255 := by
          simp; omega
        rw [hlen]
        exact hgoal
    · have hstep : cobsStep (f, run) b = (f, run ++ [b]) := by
        simp [cobsStep, hb, hflush]
      rw [hstep] at hcap ⊢
      simp only [List.length_append, List.length_cons, List.length_nil] at hcap
      have hlt : e.writeIndex < e.cap := by omega
      refine ⟨⟨e.out.set e.writeIndex b, e.cap, e.codeIndex,
        e.writeIndex + 1, e.code + 1⟩, ?_, ?_, rfl, by simp⟩
      · simp only [CobsEncoder.put]
        rw [if_neg hb, if_neg (by omega), if_neg (by rw [hcode]; omega : ¬ e.code + 1 = 0xFF)]
      · refine ⟨by simp [hc], by simp [hci], by simp; omega, by simp; omega,
          by simp; omega, ?_, ?_, by simp; omega⟩
        · rw [hwi]
          rw [take_set_of_le _ _ _ _
            (by show f.length ≤ f.length + run.length + 1; omega)]
          exact hfin
        · rw [hwi]
          have hgoal := extend_run e.out f run b hrw (by omega)
          simpa using hgoal

theorem puts_inv (S : List Nat) : ∀ (e : CobsEncoder) (f run : List Nat),
    EncInv e f run →
    (S.foldl cobsStep (f, run)).1.length + (S.foldl cobsStep (f, run)).2.length + 1 ≤ e.cap →
    ∃ e1, e.puts S = some e1 ∧
      EncInv e1 (S.foldl cobsStep (f, run)).1 (S.foldl cobsStep (f, run)).2 ∧
      e1.cap = e.cap ∧ e1.out.length = e.out.length := by
  induction S with
  | nil => intro e f run hinv hcap; exact ⟨e, rfl, hinv, rfl, rfl⟩
  | cons b rest ih =>
    intro e f run hinv hcap
    simp only [List.foldl_cons] at hcap ⊢
    have hmono := cobsFold_total rest (cobsStep (f, run) b)
    have hstepcap : (cobsStep (f, run) b).1.length + (cobsStep (f, run) b).2.length + 1 ≤
        e.cap := by omega
    obtain ⟨e1, hput, hinv1, hcap1, hlen1⟩ := put_inv e f run b hinv hstepcap
    have hfoldeq : rest.foldl cobsStep ((cobsStep (f, run) b).1, (cobsStep (f, run) b).2) =
        rest.foldl cobsStep (cobsStep (f, run) b) := by rw [Prod.mk.eta]
    obtain ⟨e2, hputs, hinv2, hcap2, hlen2⟩ :=
      ih e1 (cobsStep (f, run) b).1 (cobsStep (f, run) b).2 hinv1
        (by rw [hfoldeq, hcap1]; exact hcap)
    rw [hfoldeq] at hinv2
    refine ⟨e2, ?_, hinv2, by rw [hcap2, hcap1], by rw [hlen2, hlen1]⟩
    simp only [CobsEncoder.puts, hput]
    exact hputs

theorem begin_inv (buf : List Nat) (h : 1 ≤ buf.length) :
    ∃ e, CobsEncoder.begin buf = some e ∧ EncInv e [] [] ∧
      e.cap = buf.length ∧ e.out.length = buf.length := by
  refine ⟨⟨buf.set 0 0, buf.length, 0, 1, 1⟩, ?_, ?_, rfl, by simp⟩
  · simp only [CobsEncoder.begin]
    rw [if_neg (by omega)]
  · exact ⟨by simp, rfl, rfl, rfl, by simp, by simp, by simp, by simpa using h⟩

theorem fin_inv (e : CobsEncoder) (f run : List Nat) (hinv : EncInv e f run) :
    e.fin = (e.out.set f.length (run.length + 1), f.length + run.length + 1) ∧
    (e.out.set f.length (run.length + 1)).take (f.length + run.length + 1) =
      f ++ (run.length + 1) :: run ∧
    (e.out.set f.length (run.length + 1)).length = e.out.length := by
  obtain ⟨hc, hci, hwi, hcode, hrun, hfin, hrw, hwc⟩ := hinv
  refine ⟨?_, ?_, by simp⟩
  · simp only [CobsEncoder.fin]
    rw [hci, hcode, hwi]
  · have hgoal := close_group e.out f run hfin hrw (by omega)
    have harith : f.length + run.length + 1 = f.length + (run.length + 1) := by omega
    rw [harith]
    exact hgoal

theorem cobsSpec_length_aux (S : List Nat) :
    (cobsSpec S).length = (cobsSpecAux S).1.length + (cobsSpecAux S).2.length + 1 := by
  simp [cobsSpec]
  omega

theorem puts_append (A B : List Nat) : ∀ (e : CobsEncoder),
    e.puts (A ++ B) = match e.puts A with
      | none => none
      | some e1 => e1.puts B := by
  induction A with
  | nil => intro e; simp [CobsEncoder.puts]
  | cons b rest ih =>
    intro e
    simp only [List.cons_append, CobsEncoder.puts]
    cases e.put b with
    | none => rfl
    | some e1 => exact ih e1

theorem cobsEncode2_eq (A B out : List Nat) (e0 e1 : CobsEncoder)
    (hb : CobsEncoder.begin out = some e0) (hp : e0.puts (A ++ B) = some e1) :
    cobsEncode2 A B out = some e1.fin := by
  cases hA : e0.puts A with
  | none =>
    have h := puts_append A B e0
    rw [hA] at h
    have h2 : e0.puts (A ++ B) = none := h
    rw [h2] at hp
    exact absurd hp (by simp)
  | some eA =>
    have h := puts_append A B e0
    rw [hA] at h
    have h2 : e0.puts (A ++ B) = eA.puts B := h
    rw [h2] at hp
    simp only [cobsEncode2, hb, hA, hp]

/-- The whole encoder pipeline of `cobsEncode2` computes `cobsSpec` of the
concatenated input when the buffer is large enough. -/
theorem cobsEncode2_spec (A B buf : List Nat)
    (hcap : (cobsSpec (A ++ B)).length ≤ buf.length) :
    ∃ out, cobsEncode2 A B buf = some (out, (cobsSpec (A ++ B)).length) ∧
      out.length = buf.length ∧
      out.take (cobsSpec (A ++ B)).length = cobsSpec (A ++ B) := by
  have hlen1 : 1 ≤ buf.length := by
    have := cobsSpec_length_aux (A ++ B)
    omega
  obtain ⟨e0, hbegin, hinv0, hcap0, hlen0⟩ := begin_inv buf hlen1
  have hauxlen : (cobsSpecAux (A ++ B)).1.length + (cobsSpecAux (A ++ B)).2.length + 1 ≤
      e0.cap := by
    rw [hcap0]
    rw [cobsSpec_length_aux] at hcap
    exact hcap
  have hfold : (A ++ B).foldl cobsStep ([], []) = cobsSpecAux (A ++ B) := rfl
  obtain ⟨e1, hputs, hinv1, hcap1, hlen1'⟩ := puts_inv (A ++ B) e0 [] [] hinv0
    (by rw [hfold]; exact hauxlen)
  rw [hfold] at hinv1
  obtain ⟨hfe, hftake, hflen⟩ := fin_inv e1 _ _ hinv1
  refine ⟨e1.out.set (cobsSpecAux (A ++ B)).1.length ((cobsSpecAux (A ++ B)).2.length + 1),
    ?_, ?_, ?_⟩
  · rw [cobsEncode2_eq A B buf e0 e1 hbegin hputs, hfe, cobsSpec_length_aux]
  · rw [List.length_set, hlen1', hlen0]
  · rw [cobsSpec_length_aux]
    exact hftake

/-! ## Group structure of `cobsSpec` -/

theorem cobsFold_fin_append (S : List Nat) : ∀ (f run : List Nat),
    S.foldl cobsStep (f, run) =
      (f ++ (S.foldl cobsStep ([], run)).1, (S.foldl cobsStep ([], run)).2) := by
  induction S with
  | nil => intro f run; simp
  | cons b rest ih =>
    intro f run
    simp only [List.foldl_cons]
    have hstep : cobsStep (f, run) b =
        (f ++ (cobsStep ([], run) b).1, (cobsStep ([], run) b).2) := by
      simp only [cobsStep]
      split_ifs <;> simp
    rw [hstep, ih (f ++ (cobsStep ([], run) b).1) (cobsStep ([], run) b).2]
    have h2 : rest.foldl cobsStep (cobsStep ([], run) b) =
        ((cobsStep ([], run) b).1 ++ (rest.foldl cobsStep ([], (cobsStep ([], run) b).2)).1,
          (rest.foldl cobsStep ([], (cobsStep ([], run) b).2)).2) := by
      conv_lhs => rw [← Prod.mk.eta (p := cobsStep ([], run) b)]
      exact ih _ _
    rw [h2]
    simp [List.append_assoc]

theorem cobsFold_run (r : List Nat) : ∀ (f run : List Nat), (∀ x ∈ r, x ≠ 0) →
    run.length + r.length ≤ 253 →
    r.foldl cobsStep (f, run) = (f, run ++ r) := by
  induction r with
  | nil => intro f run _ _; simp
  | cons b rest ih =>
    intro f run hnz hlen
    simp only [List.foldl_cons]
    have hb : b ≠ 0 := hnz b (by simp)
    have hr253 : run.length ≠ 253 := by simp at hlen; omega
    have hstep : cobsStep (f, run) b = (f, run ++ [b]) := by
      simp [cobsStep, hb, hr253]
    rw [hstep, ih f (run ++ [b]) (fun x hx => hnz x (by simp [hx]))
      (by simp at hlen ⊢; omega)]
    simp

theorem cobsSpec_short (S : List Nat) (hnz : ∀ x ∈ S, x ≠ 0) (hlen : S.length ≤ 253) :
    cobsSpec S = (S.length + 1) :: S := by
  unfold cobsSpec cobsSpecAux
  rw [cobsFold_run S [] [] hnz (by simpa using hlen)]
  simp

theorem cobsSpec_zero_split (r rest : List Nat) (hnz : ∀ x ∈ r, x ≠ 0)
    (hlen : r.length ≤ 253) :
    cobsSpec (r ++ 0 :: rest) = (r.length + 1) :: r ++ cobsSpec rest := by
  unfold cobsSpec cobsSpecAux
  rw [List.foldl_append, cobsFold_run r [] [] hnz (by simpa using hlen),
    List.foldl_cons]
  have hstep : cobsStep ([], ([] : List Nat) ++ r) 0 = ((r.length + 1) :: r, []) := by
    simp [cobsStep]
  rw [hstep, cobsFold_fin_append rest ((r.length + 1) :: r) []]
  simp [List.append_assoc]

theorem cobsSpec_ff_split (r rest : List Nat) (hnz : ∀ x ∈ r, x ≠ 0)
    (hlen : r.length = 254) :
    cobsSpec (r ++ rest) = 255 :: r ++ cobsSpec rest := by
  have hrne : r ≠ [] := by intro h; rw [h] at hlen; simp at hlen
  have hr : r.dropLast ++ [r.getLast hrne] = r := List.dropLast_append_getLast hrne
  have hdl : r.dropLast.length = 253 := by
    have := List.length_dropLast r
    omega
  unfold cobsSpec cobsSpecAux
  rw [← hr, List.append_assoc, List.singleton_append, List.foldl_append,
    cobsFold_run r.dropLast [] []
      (fun x hx => hnz x (List.mem_of_mem_dropLast hx))
      (by rw [hdl]; simp), List.foldl_cons]
  have hb : r.getLast hrne ≠ 0 := hnz _ (List.getLast_mem hrne)
  have hstep : cobsStep ([], ([] : List Nat) ++ r.dropLast) (r.getLast hrne) =
      (255 :: r, []) := by
    simp only [cobsStep, List.nil_append]
    rw [if_neg hb, if_pos hdl]
    rw [hr]
  rw [hstep, cobsFold_fin_append rest (255 :: r) []]
  conv_lhs => rw [← hr]
  simp [List.append_assoc]

theorem cobsSpec_ne_nil (S : List Nat) : cobsSpec S ≠ [] := by
  simp [cobsSpec]

/-- The three ways the head of the input decomposes into its first COBS
group. -/
theorem cobsSplit_cases (S : List Nat) :
    ((∀ x ∈ S, x ≠ 0) ∧ S.length ≤ 253) ∨
    (∃ r rest, S = r ++ 0 :: rest ∧ (∀ x ∈ r, x ≠ 0) ∧ r.length ≤ 253 ∧
      S.length = r.length + rest.length + 1) ∨
    (∃ rest, S = S.take 254 ++ rest ∧ (∀ x ∈ S.take 254, x ≠ 0) ∧
      (S.take 254).length = 254 ∧ S.length = rest.length + 254) := by
  by_cases h254 : 254 ≤ (S.takeWhile (· != 0)).length
  · right; right
    obtain ⟨t, ht⟩ := List.takeWhile_prefix (l := S) (· != 0)
    have hlenS : 254 ≤ S.length := by
      calc 254 ≤ (S.takeWhile (· != 0)).length := h254
      _ ≤ S.length := (List.takeWhile_prefix _).length_le
    refine ⟨S.drop 254, (List.take_append_drop _ _).symm, ?_, ?_, ?_⟩
    · intro x hx
      have htake : S.take 254 = (S.takeWhile (· != 0)).take 254 := by
        conv_lhs => rw [← ht]
        rw [List.take_append_of_le_length h254]
      rw [htake] at hx
      have hx2 := List.mem_takeWhile_imp (List.mem_of_mem_take hx)
      simpa using hx2
    · simp [hlenS]
    · have hdl : (S.drop 254).length = S.length - 254 := by simp
      omega
  · by_cases hz : (S.takeWhile (· != 0)).length = S.length
    · left
      have hr : S.takeWhile (· != 0) = S := (List.takeWhile_prefix _).eq_of_length hz
      constructor
      · intro x hx
        rw [← hr] at hx
        simpa using List.mem_takeWhile_imp hx
      · omega
    · right; left
      have hpre := List.takeWhile_append_dropWhile (· != 0) S
      have hdne : S.dropWhile (· != 0) ≠ [] := by
        intro h0
        apply hz
        have hlen2 := congrArg List.length hpre
        simp [h0] at hlen2
        exact hlen2
      have hhead : (S.dropWhile (· != 0)).head hdne = 0 := by
        have := List.head_dropWhile_not (· != 0) S hdne
        simpa using this
      refine ⟨S.takeWhile (· != 0), (S.dropWhile (· != 0)).tail, ?_, ?_, by omega, ?_⟩
      · conv_lhs => rw [← hpre]
        congr 1
        conv_lhs => rw [← List.head_cons_tail (S.dropWhile (· != 0)) hdne]
        rw [hhead]
      · intro x hx
        simpa using List.mem_takeWhile_imp hx
      · have h1 := congrArg List.length hpre
        rw [List.length_append] at h1
        have h2 : 0 < (S.dropWhile (· != 0)).length := List.length_pos.mpr hdne
        have h3 : ((S.dropWhile (· != 0)).tail).length = (S.dropWhile (· != 0)).length - 1 :=
          List.length_tail _
        omega

/-! ## `ghostDec` decodes `cobsSpec` -/

theorem ghostDec_final (data : List Nat) (h' : data.length ≤ 253) :
    ghostDec ((data.length + 1) :: data) = some data := by
  simp [ghostDec]

theorem ghostDec_group (data E : List Nat) (hlen : data.length ≤ 253) (hE : E ≠ []) :
    ghostDec ((data.length + 1) :: (data ++ E)) =
      (ghostDec E).map (fun t => data ++ 0 :: t) := by
  have hne : data.length + 1 ≠ 255 := by omega
  cases hget : ghostDec E with
  | none => simp [ghostDec, hget]
  | some t => simp [ghostDec, hget, hne, hE]

theorem ghostDec_ff (data E : List Nat) (h : data.length = 254) :
    ghostDec (255 :: (data ++ E)) = (ghostDec E).map (fun t => data ++ t) := by
  have h1 : (254 : Nat) ≤ (data ++ E).length := by simp [h]
  have htake : (data ++ E).take 254 = data := by rw [← h, List.take_left]
  have hdrop : (data ++ E).drop 254 = E := by rw [← h, List.drop_left]
  cases hget : ghostDec E with
  | none => simp [ghostDec, h1, htake, hdrop, hget]
  | some t =>
    simp [ghostDec, htake, hdrop, hget]
    omega

theorem ghostDec_cobsSpec_aux : ∀ (n : Nat) (S : List Nat), S.length ≤ n →
    ghostDec (cobsSpec S) = some S := by
  intro n
  induction n with
  | zero =>
    intro S hS
    have hnil : S = [] := List.eq_nil_of_length_eq_zero (by omega)
    subst hnil
    rw [show cobsSpec [] = [1] from rfl]
    simp [ghostDec]
  | succ n ih =>
    intro S hS
    rcases cobsSplit_cases S with ⟨hnz, hlen⟩ |
      ⟨r, rest, hSeq, hnz, hlen, hlens⟩ | ⟨rest, hSeq, hnz, hlen, hlens⟩
    · rw [cobsSpec_short S hnz hlen]
      exact ghostDec_final S hlen
    · rw [hSeq, cobsSpec_zero_split r rest hnz hlen, List.cons_append]
      rw [ghostDec_group r (cobsSpec rest) hlen (cobsSpec_ne_nil rest)]
      rw [ih rest (by omega)]
      simp
    · rw [hSeq, cobsSpec_ff_split (S.take 254) rest hnz hlen, List.cons_append]
      rw [ghostDec_ff (S.take 254) (cobsSpec rest) hlen]
      rw [ih rest (by omega)]
      simp

theorem ghostDec_cobsSpec (S : List Nat) : ghostDec (cobsSpec S) = some S :=
  ghostDec_cobsSpec_aux S.length S le_rfl

theorem cobsSpec_nonzero_aux : ∀ (n : Nat) (S : List Nat), S.length ≤ n →
    ∀ x ∈ cobsSpec S, x ≠ 0 := by
  intro n
  induction n with
  | zero =>
    intro S hS
    have hnil : S = [] := List.eq_nil_of_length_eq_zero (by omega)
    subst hnil
    rw [show cobsSpec [] = [1] from rfl]
    simp
  | succ n ih =>
    intro S hS
    rcases cobsSplit_cases S with ⟨hnz, hlen⟩ |
      ⟨r, rest, hSeq, hnz, hlen, hlens⟩ | ⟨rest, hSeq, hnz, hlen, hlens⟩
    · rw [cobsSpec_short S hnz hlen]
      intro x hx
      rcases List.mem_cons.mp hx with h | h
      · omega
      · exact hnz x h
    · rw [hSeq, cobsSpec_zero_split r rest hnz hlen]
      intro x hx
      rcases List.mem_cons.mp hx with h | h
      · omega
      · rcases List.mem_append.mp h with h2 | h2
        · exact hnz x h2
        · exact ih rest (by omega) x h2
    · rw [hSeq, cobsSpec_ff_split (S.take 254) rest hnz hlen]
      intro x hx
      rcases List.mem_cons.mp hx with h | h
      · omega
      · rcases List.mem_append.mp h with h2 | h2
        · exact hnz x h2
        · exact ih rest (by omega) x h2

theorem cobsSpec_nonzero (S : List Nat) : ∀ x ∈ cobsSpec S, x ≠ 0 :=
  cobsSpec_nonzero_aux S.length S le_rfl

theorem cobsSpec_lt256_aux : ∀ (n : Nat) (S : List Nat), S.length ≤ n →
    (∀ x ∈ S, x < 256) → ∀ x ∈ cobsSpec S, x < 256 := by
  intro n
  induction n with
  | zero =>
    intro S hS _
    have hnil : S = [] := List.eq_nil_of_length_eq_zero (by omega)
    subst hnil
    rw [show cobsSpec [] = [1] from rfl]
    simp
  | succ n ih =>
    intro S hS hbyte
    rcases cobsSplit_cases S with ⟨hnz, hlen⟩ |
      ⟨r, rest, hSeq, hnz, hlen, hlens⟩ | ⟨rest, hSeq, hnz, hlen, hlens⟩
    · rw [cobsSpec_short S hnz hlen]
      intro x hx
      rcases List.mem_cons.mp hx with h | h
      · omega
      · exact hbyte x h
    · rw [hSeq, cobsSpec_zero_split r rest hnz hlen]
      intro x hx
      rcases List.mem_cons.mp hx with h | h
      · omega
      · rcases List.mem_append.mp h with h2 | h2
        · exact hbyte x (by rw [hSeq]; exact List.mem_append_left _ h2)
        · refine ih rest (by omega) (fun y hy => ?_) x h2
          exact hbyte y (by rw [hSeq]; exact List.mem_append_right _ (by simp [hy]))
    · rw [hSeq, cobsSpec_ff_split (S.take 254) rest hnz hlen]
      intro x hx
      rcases List.mem_cons.mp hx with h | h
      · omega
      · rcases List.mem_append.mp h with h2 | h2
        · exact hbyte x (List.mem_of_mem_take h2)
        · refine ih rest (by omega) (fun y hy => ?_) x h2
          exact hbyte y (by rw [hSeq]; exact List.mem_append_right _ hy)

theorem cobsSpec_lt256 (S : List Nat) (h : ∀ x ∈ S, x < 256) :
    ∀ x ∈ cobsSpec S, x < 256 :=
  cobsSpec_lt256_aux S.length S le_rfl h

theorem cobsSpec_length_le_aux : ∀ (n : Nat) (S : List Nat), S.length ≤ n →
    (cobsSpec S).length ≤ S.length + 1 + S.length / 254 := by
  intro n
  induction n with
  | zero =>
    intro S hS
    have hnil : S = [] := List.eq_nil_of_length_eq_zero (by omega)
    subst hnil
    rw [show cobsSpec [] = [1] from rfl]
    simp
  | succ n ih =>
    intro S hS
    rcases cobsSplit_cases S with ⟨hnz, hlen⟩ |
      ⟨r, rest, hSeq, hnz, hlen, hlens⟩ | ⟨rest, hSeq, hnz, hlen, hlens⟩
    · rw [cobsSpec_short S hnz hlen]
      simp
    · rw [hSeq, cobsSpec_zero_split r rest hnz hlen]
      have h1 := ih rest (by omega)
      have h2 : rest.length / 254 ≤ (r.length + rest.length + 1) / 254 :=
        Nat.div_le_div_right (by omega)
      have h3 : S.length = (r ++ 0 :: rest).length := by rw [hSeq]
      simp only [List.length_cons, List.length_append] at h3 ⊢
      omega
    · rw [hSeq, cobsSpec_ff_split (S.take 254) rest hnz hlen]
      have h1 := ih rest (by omega)
      have h2 : (rest.length + 254) / 254 = rest.length / 254 + 1 :=
        Nat.add_div_right _ (by norm_num)
      simp only [List.length_cons, List.length_append]
      rw [hlen]
      omega

theorem cobsSpec_length_le (S : List Nat) :
    (cobsSpec S).length ≤ S.length + 1 + S.length / 254 :=
  cobsSpec_length_le_aux S.length S le_rfl

/-! ## The in-place decoder agrees with `ghostDec` -/

theorem window_of_take (l : List Nat) (m j k : Nat) (h : j + k ≤ m) :
    ((l.take m).drop j).take k = (l.drop j).take k := by
  rw [List.drop_take, List.take_take]
  congr 1
  omega

theorem windows_eq_of_take_eq (x y : List Nat) (m j k : Nat) (h : x.take m = y.take m)
    (hjk : j + k ≤ m) : (x.drop j).take k = (y.drop j).take k := by
  rw [← window_of_take x m j k hjk, ← window_of_take y m j k hjk, h]

theorem getD_take (l : List Nat) (m j : Nat) (hj : j < m) :
    (l.take m).getD j 0 = l.getD j 0 := by
  rcases Nat.lt_or_ge j l.length with h | h
  · rw [List.getD_eq_getElem _ _ (by simp; omega), List.getD_eq_getElem _ _ h]
    exact List.getElem_take _
  · rw [List.getD_eq_getElem?_getD, List.getD_eq_getElem?_getD,
      List.getElem?_eq_none (by simp; omega), List.getElem?_eq_none (by omega)]

theorem getD_eq_of_take_eq (x y : List Nat) (m j : Nat) (h : x.take m = y.take m)
    (hj : j < m) : x.getD j 0 = y.getD j 0 := by
  rw [← getD_take x m j hj, ← getD_take y m j hj, h]

theorem drop_append_ge (l1 l2 : List Nat) (n : Nat) (h : l1.length ≤ n) :
    (l1 ++ l2).drop n = l2.drop (n - l1.length) := by
  have heq : n = l1.length + (n - l1.length) := by omega
  conv_lhs => rw [heq]
  rw [List.drop_append]

theorem window_cons (buf : List Nat) (ri encLen : Nat) (h1 : ri < encLen)
    (h2 : encLen ≤ buf.length) :
    (buf.drop ri).take (encLen - ri) =
      buf.getD ri 0 :: (buf.drop (ri + 1)).take (encLen - ri - 1) := by
  rw [List.drop_eq_getElem_cons (by omega : ri < buf.length),
    List.getD_eq_getElem _ _ (by omega)]
  have heq : encLen - ri = (encLen - ri - 1) + 1 := by omega
  rw [heq, List.take_succ_cons]
  simp

theorem ghostDec_nil : ghostDec [] = some [] := by
  rw [ghostDec]

theorem ghostDec_cons (code : Nat) (rest : List Nat) :
    ghostDec (code :: rest) =
      if code = 0 then none
      else if code - 1 ≤ rest.length then
        match ghostDec (rest.drop (code - 1)) with
        | none => none
        | some t =>
          if code ≠ 255 ∧ rest.drop (code - 1) ≠ [] then
            some (rest.take (code - 1) ++ 0 :: t)
          else some (rest.take (code - 1) ++ t)
      else none := by
  rw [ghostDec]

theorem getD_oob (l : List Nat) (q : Nat) (h : l.length ≤ q) : l.getD q 0 = 0 := by
  rw [List.getD_eq_getElem?_getD, List.getElem?_eq_none h]
  rfl

theorem copySeg_getD_outside (k : Nat) : ∀ (buf : List Nat) (r w q : Nat),
    (q < w ∨ w + k ≤ q) → (copySeg buf r w k).getD q 0 = buf.getD q 0 := by
  induction k with
  | zero => intro buf r w q _; rfl
  | succ k ih =>
    intro buf r w q hq
    simp only [copySeg]
    rw [ih _ _ _ _ (by omega)]
    rcases Nat.lt_or_ge q buf.length with h | h
    · rw [List.getD_eq_getElem (buf.set w (buf.getD r 0)) 0 (by simp; omega),
        List.getD_eq_getElem buf 0 h]
      exact List.getElem_set_ne (by omega) (by simp; omega)
    · rw [getD_oob _ _ (by simp; omega), getD_oob _ _ (by omega)]

theorem copySeg_window_outside (k : Nat) (buf : List Nat) (r w i m : Nat)
    (h : w + k ≤ i) :
    ((copySeg buf r w k).drop i).take m = (buf.drop i).take m := by
  apply List.ext_getElem (by simp [copySeg_length])
  intro n h1 h2
  have hlen := copySeg_length k buf r w
  have hb : i + n < buf.length := by
    simp [hlen] at h1
    omega
  have hb2 : i + n < (copySeg buf r w k).length := by rw [hlen]; exact hb
  simp only [List.getElem_take, List.getElem_drop]
  have hq := copySeg_getD_outside k buf r w (i + n) (Or.inr (by omega))
  rw [List.getD_eq_getElem (copySeg buf r w k) 0 hb2,
    List.getD_eq_getElem buf 0 hb] at hq
  exact hq

theorem copySeg_take_outside (k : Nat) (buf : List Nat) (r w m : Nat) (h : m ≤ w) :
    (copySeg buf r w k).take m = buf.take m := by
  apply List.ext_getElem (by simp [copySeg_length])
  intro n h1 h2
  have hlen := copySeg_length k buf r w
  have hn : n < m ⊓ buf.length := by
    have h3 := h1
    rw [List.length_take, hlen] at h3
    exact h3
  have hb : n < buf.length := by omega
  have hb2 : n < (copySeg buf r w k).length := by rw [hlen]; exact hb
  simp only [List.getElem_take]
  have hq := copySeg_getD_outside k buf r w n (Or.inl (by omega))
  rw [List.getD_eq_getElem (copySeg buf r w k) 0 hb2,
    List.getD_eq_getElem buf 0 hb] at hq
  exact hq

theorem copySeg_data (buf : List Nat) (ri wi code encLen : Nat)
    (hwr : wi ≤ ri) (hcode : 1 ≤ code) (hle : ri + code ≤ encLen)
    (hbuf : encLen ≤ buf.length) :
    ((copySeg buf (ri + 1) wi (code - 1)).drop wi).take (code - 1) =
      (buf.drop (ri + 1)).take (code - 1) := by
  have hclosed := copySeg_closed (code - 1) buf (ri + 1) wi (by omega) (by omega)
  rw [hclosed, List.append_assoc]
  rw [List.drop_left' (show (buf.take wi).length = wi by simp; omega)]
  rw [List.take_left'
    (show ((buf.drop (ri + 1)).take (code - 1)).length = code - 1 by simp; omega)]

theorem take_eq_of_take_eq (x y : List Nat) (m j : Nat) (h : x.take m = y.take m)
    (hj : j ≤ m) : x.take j = y.take j := by
  have hx : (x.take m).take j = x.take j := by
    rw [List.take_take]
    congr 1
    omega
  have hy : (y.take m).take j = y.take j := by
    rw [List.take_take]
    congr 1
    omega
  rw [← hx, ← hy, h]

/-- The in-place decode loop computes exactly what `ghostDec` computes on
the remaining window `buf[ri..encLen)`: same success/failure, the
decoded bytes land at `[wi, wi + out.length)` and everything below `wi`
is untouched. -/
theorem decodeLoop_ghost : ∀ (fuel : Nat) (buf : List Nat) (encLen ri wi : Nat),
    wi ≤ ri → ri ≤ encLen → encLen ≤ buf.length → encLen - ri ≤ fuel →
    (ghostDec ((buf.drop ri).take (encLen - ri)) = none →
      decodeLoop fuel buf encLen ri wi = none) ∧
    (∀ out, ghostDec ((buf.drop ri).take (encLen - ri)) = some out →
      ∃ buf2, decodeLoop fuel buf encLen ri wi = some (buf2, wi + out.length) ∧
        buf2.length = buf.length ∧ buf2.take wi = buf.take wi ∧
        (buf2.drop wi).take out.length = out) := by
  intro fuel
  induction fuel with
  | zero =>
    intro buf encLen ri wi hwr hrie hbuf hfuel
    have hri : encLen = ri := by omega
    subst hri
    constructor
    · intro hnone
      rw [show encLen - encLen = 0 by omega, List.take_zero,
        ghostDec_nil] at hnone
      exact absurd hnone (by simp)
    · intro out hout
      rw [show encLen - encLen = 0 by omega, List.take_zero,
        ghostDec_nil] at hout
      injection hout with hout2
      subst hout2
      exact ⟨buf, by simp [decodeLoop], rfl, rfl, by simp⟩
  | succ fuel ih =>
    intro buf encLen ri wi hwr hrie hbuf hfuel
    by_cases hri : ri < encLen
    case neg =>
      have hri2 : encLen = ri := by omega
      subst hri2
      constructor
      · intro hnone
        rw [show encLen - encLen = 0 by omega, List.take_zero,
          ghostDec_nil] at hnone
        exact absurd hnone (by simp)
      · intro out hout
        rw [show encLen - encLen = 0 by omega, List.take_zero,
          ghostDec_nil] at hout
        injection hout with hout2
        subst hout2
        exact ⟨buf, by simp [decodeLoop], rfl, rfl, by simp⟩
    case pos =>
      have hrem := window_cons buf ri encLen hri hbuf
      by_cases hc0 : buf.getD ri 0 = 0
      · constructor
        · intro _
          simp only [decodeLoop]
          rw [if_pos hri, if_pos hc0]
        · intro out hout
          rw [hrem, ghostDec_cons, if_pos hc0] at hout
          exact absurd hout (by simp)
      · by_cases hfit : ri + buf.getD ri 0 ≤ encLen
        case neg =>
          have hcond : ¬ (buf.getD ri 0 - 1 ≤
              ((buf.drop (ri + 1)).take (encLen - ri - 1)).length) := by
            rw [List.length_take, List.length_drop]
            omega
          constructor
          · intro _
            simp only [decodeLoop]
            rw [if_pos hri, if_neg hc0, if_neg hfit]
          · intro out hout
            rw [hrem, ghostDec_cons, if_neg hc0, if_neg hcond] at hout
            exact absurd hout (by simp)
        case pos =>
          have hc1 : 1 ≤ buf.getD ri 0 := by omega
          have hcond : buf.getD ri 0 - 1 ≤
              ((buf.drop (ri + 1)).take (encLen - ri - 1)).length := by
            rw [List.length_take, List.length_drop]
            omega
          have hdata : ((buf.drop (ri + 1)).take (encLen - ri - 1)).take (buf.getD ri 0 - 1) =
              (buf.drop (ri + 1)).take (buf.getD ri 0 - 1) := by
            rw [List.take_take]
            congr 1
            omega
          have hrest : ((buf.drop (ri + 1)).take (encLen - ri - 1)).drop (buf.getD ri 0 - 1) =
              (buf.drop (ri + buf.getD ri 0)).take (encLen - (ri + buf.getD ri 0)) := by
            rw [List.drop_take, List.drop_drop]
            have e1 : encLen - ri - 1 - (buf.getD ri 0 - 1) =
                encLen - (ri + buf.getD ri 0) := by omega
            have e2 : ri + 1 + (buf.getD ri 0 - 1) = ri + buf.getD ri 0 := by omega
            rw [e1, e2]
          have hrestlen : ((buf.drop (ri + buf.getD ri 0)).take
              (encLen - (ri + buf.getD ri 0))).length = encLen - (ri + buf.getD ri 0) := by
            rw [List.length_take, List.length_drop]
            omega
          have hdatalen : ((buf.drop (ri + 1)).take (buf.getD ri 0 - 1)).length =
              buf.getD ri 0 - 1 := by
            rw [List.length_take, List.length_drop]
            omega
          have hg : ghostDec ((buf.drop ri).take (encLen - ri)) =
              (match ghostDec ((buf.drop (ri + buf.getD ri 0)).take
                  (encLen - (ri + buf.getD ri 0))) with
               | none => none
               | some t =>
                 if buf.getD ri 0 ≠ 255 ∧ ri + buf.getD ri 0 < encLen then
                   some ((buf.drop (ri + 1)).take (buf.getD ri 0 - 1) ++ 0 :: t)
                 else some ((buf.drop (ri + 1)).take (buf.getD ri 0 - 1) ++ t)) := by
            rw [hrem, ghostDec_cons, if_neg hc0, if_pos hcond, hrest, hdata]
            cases hG : ghostDec ((buf.drop (ri + buf.getD ri 0)).take
                (encLen - (ri + buf.getD ri 0))) with
            | none => simp only [hG]
            | some t =>
              simp only [hG]
              have hiff : (buf.getD ri 0 ≠ 255 ∧
                  (buf.drop (ri + buf.getD ri 0)).take
                    (encLen - (ri + buf.getD ri 0)) ≠ []) ↔
                  (buf.getD ri 0 ≠ 255 ∧ ri + buf.getD ri 0 < encLen) := by
                constructor
                · rintro ⟨ha, hb⟩
                  refine ⟨ha, ?_⟩
                  have hpos := List.length_pos.mpr hb
                  rw [hrestlen] at hpos
                  omega
                · rintro ⟨ha, hb⟩
                  refine ⟨ha, ?_⟩
                  intro h0
                  have hlen0 := congrArg List.length h0
                  rw [hrestlen, List.length_nil] at hlen0
                  omega
              rw [if_congr hiff rfl rfl]
          -- copySeg facts
          have hcs_len : (copySeg buf (ri + 1) wi (buf.getD ri 0 - 1)).length = buf.length :=
            copySeg_length _ _ _ _
          have hcs_take : (copySeg buf (ri + 1) wi (buf.getD ri 0 - 1)).take wi =
              buf.take wi := copySeg_take_outside _ _ _ _ _ le_rfl
          have hcs_data := copySeg_data buf ri wi (buf.getD ri 0) encLen hwr hc1 hfit hbuf
          have hcs_suffix : ((copySeg buf (ri + 1) wi (buf.getD ri 0 - 1)).drop
              (ri + buf.getD ri 0)).take (encLen - (ri + buf.getD ri 0)) =
              (buf.drop (ri + buf.getD ri 0)).take (encLen - (ri + buf.getD ri 0)) :=
            copySeg_window_outside _ _ _ _ _ _ (by omega)
          constructor
          · intro hnone
            rw [hg] at hnone
            cases hG : ghostDec ((buf.drop (ri + buf.getD ri 0)).take
                (encLen - (ri + buf.getD ri 0))) with
            | some t =>
              simp only [hG] at hnone
              split_ifs at hnone <;> simp at hnone
            | none =>
              simp only [decodeLoop]
              rw [if_pos hri, if_neg hc0, if_pos hfit]
              by_cases hcnd : ¬ buf.getD ri 0 = 0xFF ∧ ri + buf.getD ri 0 < encLen
              · rw [if_pos hcnd]
                have hw : (((copySeg buf (ri + 1) wi (buf.getD ri 0 - 1)).set
                    (wi + (buf.getD ri 0 - 1)) 0).drop (ri + buf.getD ri 0)).take
                    (encLen - (ri + buf.getD ri 0)) =
                    (buf.drop (ri + buf.getD ri 0)).take
                      (encLen - (ri + buf.getD ri 0)) := by
                  rw [drop_take_set_outside _ _ _ _ _ (Or.inl (by omega))]
                  exact hcs_suffix
                refine (ih _ encLen (ri + buf.getD ri 0) (wi + (buf.getD ri 0 - 1) + 1)
                  (by omega) (by omega) (by rw [List.length_set, hcs_len]; omega) (by omega)).1 ?_
                rw [hw]
                exact hG
              · rw [if_neg hcnd]
                refine (ih _ encLen (ri + buf.getD ri 0) (wi + (buf.getD ri 0 - 1))
                  (by omega) (by omega) (by rw [hcs_len]; omega) (by omega)).1 ?_
                rw [hcs_suffix]
                exact hG
          · intro out hout
            rw [hg] at hout
            cases hG : ghostDec ((buf.drop (ri + buf.getD ri 0)).take
                (encLen - (ri + buf.getD ri 0))) with
            | none =>
              simp only [hG] at hout
              exact absurd hout (by simp)
            | some t =>
              simp only [hG] at hout
              split_ifs at hout with hcnd
              · -- emission branch
                injection hout with hout2
                subst hout2
                have hw : (((copySeg buf (ri + 1) wi (buf.getD ri 0 - 1)).set
                    (wi + (buf.getD ri 0 - 1)) 0).drop (ri + buf.getD ri 0)).take
                    (encLen - (ri + buf.getD ri 0)) =
                    (buf.drop (ri + buf.getD ri 0)).take
                      (encLen - (ri + buf.getD ri 0)) := by
                  rw [drop_take_set_outside _ _ _ _ _ (Or.inl (by omega))]
                  exact hcs_suffix
                obtain ⟨buf4, hrun, hlen4, htake4, hwin4⟩ :=
                  (ih ((copySeg buf (ri + 1) wi (buf.getD ri 0 - 1)).set
                      (wi + (buf.getD ri 0 - 1)) 0) encLen (ri + buf.getD ri 0)
                      (wi + (buf.getD ri 0 - 1) + 1)
                    (by omega) (by omega) (by rw [List.length_set, hcs_len]; omega) (by omega)).2 t
                  (by rw [hw]; exact hG)
                have hb3len : ((copySeg buf (ri + 1) wi (buf.getD ri 0 - 1)).set
                    (wi + (buf.getD ri 0 - 1)) 0).length = buf.length := by
                  rw [List.length_set, hcs_len]
                refine ⟨buf4, ?_, by rw [hlen4, hb3len], ?_, ?_⟩
                · simp only [decodeLoop]
                  rw [if_pos hri, if_neg hc0, if_pos hfit, if_pos hcnd, hrun]
                  congr 2
                  simp only [List.length_append, List.length_cons, hdatalen]
                  omega
                · have h1 : buf4.take wi = (((copySeg buf (ri + 1) wi
                      (buf.getD ri 0 - 1)).set (wi + (buf.getD ri 0 - 1)) 0)).take wi :=
                    take_eq_of_take_eq _ _ _ _ htake4 (by omega)
                  rw [h1, take_set_of_le _ _ _ _ (by omega), hcs_take]
                · have houtlen : ((buf.drop (ri + 1)).take (buf.getD ri 0 - 1) ++
                      0 :: t).length = (buf.getD ri 0 - 1) + (1 + t.length) := by
                    simp only [List.length_append, List.length_cons, hdatalen]
                    omega
                  rw [houtlen, List.take_add]
                  -- the data part
                  have hpart1 : (buf4.drop wi).take (buf.getD ri 0 - 1) =
                      (buf.drop (ri + 1)).take (buf.getD ri 0 - 1) := by
                    have h2 := windows_eq_of_take_eq _ _ _ wi (buf.getD ri 0 - 1)
                      htake4 (by omega)
                    rw [h2, drop_take_set_outside _ _ _ _ _ (Or.inr (by omega))]
                    exact hcs_data
                  rw [hpart1]
                  congr 1
                  -- the 0 :: t part
                  rw [List.drop_drop]
                  have h3 : (1 : Nat) + t.length = t.length + 1 := by omega
                  have h4 : (buf4.drop (wi + (buf.getD ri 0 - 1))).take (1 + t.length) =
                      (buf4.drop (wi + (buf.getD ri 0 - 1))).take 1 ++
                      ((buf4.drop (wi + (buf.getD ri 0 - 1))).drop 1).take t.length := by
                    rw [List.take_add]
                  rw [h4]
                  have h5 : (buf4.drop (wi + (buf.getD ri 0 - 1))).take 1 = [0] := by
                    rw [drop_take_one _ _ (by rw [hlen4, hb3len]; omega)]
                    have h6 := getD_eq_of_take_eq buf4
                      ((copySeg buf (ri + 1) wi (buf.getD ri 0 - 1)).set
                        (wi + (buf.getD ri 0 - 1)) 0)
                      (wi + (buf.getD ri 0 - 1) + 1) (wi + (buf.getD ri 0 - 1))
                      htake4 (by omega)
                    rw [h6, getD_set_self _ _ _ (by rw [hcs_len]; omega)]
                  rw [h5, List.drop_drop]
                  rw [hwin4]
                  simp
              · -- no-emission branch
                injection hout with hout2
                subst hout2
                obtain ⟨buf4, hrun, hlen4, htake4, hwin4⟩ :=
                  (ih (copySeg buf (ri + 1) wi (buf.getD ri 0 - 1)) encLen
                      (ri + buf.getD ri 0) (wi + (buf.getD ri 0 - 1))
                    (by omega) (by omega) (by rw [hcs_len]; omega) (by omega)).2 t
                  (by rw [hcs_suffix]; exact hG)
                refine ⟨buf4, ?_, by rw [hlen4, hcs_len], ?_, ?_⟩
                · simp only [decodeLoop]
                  rw [if_pos hri, if_neg hc0, if_pos hfit, if_neg hcnd, hrun]
                  congr 2
                  simp only [List.length_append, hdatalen]
                  omega
                · have h1 : buf4.take wi =
                      (copySeg buf (ri + 1) wi (buf.getD ri 0 - 1)).take wi :=
                    take_eq_of_take_eq _ _ _ _ htake4 (by omega)
                  rw [h1, hcs_take]
                · have houtlen : ((buf.drop (ri + 1)).take (buf.getD ri 0 - 1) ++
                      t).length = (buf.getD ri 0 - 1) + t.length := by
                    simp only [List.length_append, hdatalen]
                  rw [houtlen, List.take_add]
                  have hpart1 : (buf4.drop wi).take (buf.getD ri 0 - 1) =
                      (buf.drop (ri + 1)).take (buf.getD ri 0 - 1) := by
                    have h2 := windows_eq_of_take_eq _ _ _ wi (buf.getD ri 0 - 1)
                      htake4 (by omega)
                    rw [h2]
                    exact hcs_data
                  rw [hpart1]
                  congr 1
                  rw [List.drop_drop]
                  exact hwin4

/-- `cobsDecodeInPlace` through the ghost decoder. -/
theorem cobsDecodeInPlace_ghost (buf : List Nat) (encLen : Nat)
    (hlen : encLen ≤ buf.length) :
    (ghostDec (buf.take encLen) = none → cobsDecodeInPlace buf encLen = none) ∧
    (∀ out, ghostDec (buf.take encLen) = some out →
      ∃ buf2, cobsDecodeInPlace buf encLen = some (buf2, out.length) ∧
        buf2.length = buf.length ∧ buf2.take out.length = out) := by
  have h := decodeLoop_ghost encLen buf encLen 0 0 (le_refl 0) (Nat.zero_le _) hlen
    (by omega)
  simp only [List.drop_zero, Nat.sub_zero] at h
  refine ⟨h.1, ?_⟩
  intro out hout
  obtain ⟨buf2, hrun, hlen2, _, hwin⟩ := h.2 out hout
  exact ⟨buf2, by simpa using hrun, hlen2, hwin⟩

/-! ## Marshalling and CRC facts -/

theorem getD_drop (l : List Nat) (i k : Nat) :
    (l.drop i).getD k 0 = l.getD (i + k) 0 := by
  rcases Nat.lt_or_ge (i + k) l.length with h | h
  · rw [List.getD_eq_getElem (l.drop i) 0 (by simp; omega),
      List.getD_eq_getElem l 0 h]
    exact List.getElem_drop l
  · rw [getD_oob _ _ (by simp; omega), getD_oob _ _ (by omega)]

theorem u32beBytes_length (v : Nat) : (u32beBytes v).length = 4 := rfl

theorem u32beBytes_lt256 (v : Nat) : ∀ x ∈ u32beBytes v, x < 256 := by
  intro x hx
  simp [u32beBytes] at hx
  rcases hx with h | h | h | h <;> subst h <;> omega

theorem read_u32_at_window (l : List Nat) (i v : Nat) (hv : v < 2 ^ 32)
    (hw : (l.drop i).take 4 = u32beBytes v) :
    read_u32_at l i = v := by
  have h0 : l.getD i 0 = v / 2 ^ 24 % 256 := by
    have := congrArg (fun t => t.getD 0 0) hw
    simp only [u32beBytes] at this
    rw [getD_take _ _ _ (by omega), getD_drop] at this
    simpa using this
  have h1 : l.getD (i + 1) 0 = v / 2 ^ 16 % 256 := by
    have := congrArg (fun t => t.getD 1 0) hw
    simp only [u32beBytes] at this
    rw [getD_take _ _ _ (by omega), getD_drop] at this
    simpa using this
  have h2 : l.getD (i + 2) 0 = v / 2 ^ 8 % 256 := by
    have := congrArg (fun t => t.getD 2 0) hw
    simp only [u32beBytes] at this
    rw [getD_take _ _ _ (by omega), getD_drop] at this
    simpa using this
  have h3 : l.getD (i + 3) 0 = v % 256 := by
    have := congrArg (fun t => t.getD 3 0) hw
    simp only [u32beBytes] at this
    rw [getD_take _ _ _ (by omega), getD_drop] at this
    simpa using this
  rw [read_u32_at, h0, h1, h2, h3]
  omega

theorem crc32Round_lt (c : Nat) (h : c < 2 ^ 32) : crc32Round c < 2 ^ 32 := by
  rw [crc32Round]
  split_ifs
  · exact Nat.xor_lt_two_pow (by omega) (by norm_num)
  · omega

theorem crc32Byte_lt (c b : Nat) (hc : c < 2 ^ 32) (hb : b < 256) :
    crc32Byte c b < 2 ^ 32 := by
  have hx : c ^^^ b < 2 ^ 32 := Nat.xor_lt_two_pow hc (by omega)
  rw [crc32Byte]
  have hgen : ∀ (n : Nat) (x : Nat), x < 2 ^ 32 →
      (List.range n).foldl (fun c _ => crc32Round c) x < 2 ^ 32 := by
    intro n
    induction n with
    | zero => intro x hx2; simpa using hx2
    | succ n ih =>
      intro x hx2
      rw [List.range_succ, List.foldl_append]
      exact crc32Round_lt _ (ih x hx2)
  exact hgen 8 _ hx

theorem crc32_lt (data : List Nat) (h : ∀ x ∈ data, x < 256) :
    crc32_iso_hdlc data < 2 ^ 32 := by
  rw [crc32_iso_hdlc]
  have hfold : ∀ (l : List Nat) (c : Nat), (∀ x ∈ l, x < 256) → c < 2 ^ 32 →
      l.foldl crc32Byte c < 2 ^ 32 := by
    intro l
    induction l with
    | nil => intro c _ hc; simpa using hc
    | cons b rest ih =>
      intro c hl hc
      rw [List.foldl_cons]
      exact ih _ (fun x hx => hl x (by simp [hx]))
        (crc32Byte_lt c b hc (hl b (by simp)))
  exact Nat.xor_lt_two_pow (hfold data _ h (by norm_num)) (by norm_num)

/-! ## `createPacket` produces `cobsSpec (frame ++ crc) ++ [0]` -/

theorem maxPacketSize_ge (P D : Nat) (hD : D ≤ P + 4) :
    D + 1 + D / 254 + 1 ≤ maxPacketSize P := by
  rw [maxPacketSize, maxFrameSize, cobsMaxOverhead, kFrameHeaderSize]
  have h1 : D / 254 ≤ (8 + P + 4 + 253) / 254 := Nat.div_le_div_right (by omega)
  omega

theorem createPacket_spec (F buf0 : List Nat) (P : Nat) (hF : F.length ≤ P)
    (hbuf : buf0.length = maxPacketSize P) :
    ∃ pkt, createPacket F buf0 =
      (Error.OK, pkt,
        (cobsSpec (F ++ u32beBytes (crc32_iso_hdlc F))).length + 1) ∧
      pkt.length = buf0.length ∧
      pkt.take ((cobsSpec (F ++ u32beBytes (crc32_iso_hdlc F))).length + 1) =
        cobsSpec (F ++ u32beBytes (crc32_iso_hdlc F)) ++ [0] := by
  have hDlen : (F ++ u32beBytes (crc32_iso_hdlc F)).length = F.length + 4 := by
    simp [u32beBytes_length]
  have hspec := cobsSpec_length_le (F ++ u32beBytes (crc32_iso_hdlc F))
  rw [hDlen] at hspec
  have hroom : (cobsSpec (F ++ u32beBytes (crc32_iso_hdlc F))).length + 1 ≤
      maxPacketSize P := by
    have h1 := maxPacketSize_ge P (F.length + 4) (by omega)
    omega
  obtain ⟨out, henc, holen, htake⟩ := cobsEncode2_spec F (u32beBytes (crc32_iso_hdlc F))
    buf0 (by omega)
  refine ⟨out.set (cobsSpec (F ++ u32beBytes (crc32_iso_hdlc F))).length 0, ?_, ?_, ?_⟩
  · simp only [createPacket, henc]
    rw [if_neg (by rw [hbuf, maxPacketSize]; omega),
      if_neg (show ¬ (cobsSpec (F ++ u32beBytes (crc32_iso_hdlc F))).length ≥
        buf0.length by omega)]
  · rw [List.length_set]
    exact holen
  · rw [take_succ_set _ _ _ (by omega)]
    rw [htake]

/-! ## Feeding a packet to the framer -/

theorem writeBytes_length (src : List Nat) : ∀ (l : List Nat) (i : Nat),
    (writeBytes l i src).length = l.length := by
  induction src with
  | nil => intro l i; rfl
  | cons b rest ih => intro l i; rw [writeBytes, ih]; simp

theorem read_u32_at_eq_of_take_eq (x y : List Nat) (m i : Nat)
    (h : x.take m = y.take m) (hi : i + 4 ≤ m) :
    read_u32_at x i = read_u32_at y i := by
  rw [read_u32_at, read_u32_at,
    getD_eq_of_take_eq x y m i h (by omega),
    getD_eq_of_take_eq x y m (i + 1) h (by omega),
    getD_eq_of_take_eq x y m (i + 2) h (by omega),
    getD_eq_of_take_eq x y m (i + 3) h (by omega)]

theorem processBytes_append (M : Nat) (B : List Nat) : ∀ (A : List Nat)
    (s s1 s2 : FramerState) (e1 e2 : List Error) (v1 v2 : List (List Nat)),
    processBytes M s A = (s1, e1, v1) → processBytes M s1 B = (s2, e2, v2) →
    processBytes M s (A ++ B) = (s2, e1 ++ e2, v1 ++ v2) := by
  intro A
  induction A with
  | nil =>
    intro s s1 s2 e1 e2 v1 v2 hA hB
    rw [processBytes] at hA
    injection hA with h1 h2
    injection h2 with h2 h3
    subst h1; subst h2; subst h3
    simpa using hB
  | cons b rest ih =>
    intro s s1 s2 e1 e2 v1 v2 hA hB
    rw [processBytes] at hA
    rcases hpr : processBytes M (processByte M s b).1 rest with ⟨sr, er, vr⟩
    rw [hpr] at hA
    injection hA with h1 h2
    injection h2 with h2 h3
    subst h1; subst h2; subst h3
    have hstep := ih (processByte M s b).1 sr s2 er e2 vr v2 hpr hB
    rw [List.cons_append, processBytes, hstep]
    simp [List.append_assoc]

theorem processBytes_accumulate (M : Nat) : ∀ (E : List Nat) (s : FramerState),
    (∀ b ∈ E, b ≠ 0) → s.rxIndex + E.length ≤ M →
    processBytes M s E =
      ({ s with rxBuffer := writeBytes s.rxBuffer s.rxIndex E,
                rxIndex := s.rxIndex + E.length },
        List.replicate E.length Error.OK, []) := by
  intro E
  induction E with
  | nil =>
    intro s _ _
    rw [processBytes, writeBytes]
    cases s
    simp
  | cons b rest ih =>
    intro s hnz hle
    have hb : b ≠ 0 := hnz b (by simp)
    have hpb : processByte M s b =
        ({ s with rxBuffer := s.rxBuffer.set s.rxIndex b, rxIndex := s.rxIndex + 1 },
          Error.OK, []) := by
      rw [processByte]
      rw [if_neg hb, if_neg (by simp at hle; omega)]
    have hnext := ih ({ s with rxBuffer := s.rxBuffer.set s.rxIndex b, rxIndex := s.rxIndex + 1 }) (fun x hx => hnz x (by simp [hx])) (by simp at hle ⊢; omega)
    simp only at hnext
    rw [processBytes]
    simp only [hpb, hnext]
    simp only [writeBytes, List.length_cons, List.replicate_succ]
    have harith : s.rxIndex + 1 + rest.length = s.rxIndex + (rest.length + 1) := by
      omega
    rw [harith]
    simp

theorem feedPacket (M : Nat) (s : FramerState) (D : List Nat)
    (hs : s.rxIndex = 0) (hlen : s.rxBuffer.length = M)
    (hfit : (cobsSpec D).length ≤ M)
    (hD4 : 4 ≤ D.length)
    (hcrc : read_u32_at D (D.length - 4) = crc32_iso_hdlc (D.take (D.length - 4))) :
    ∃ s2, processBytes M s (cobsSpec D ++ [0]) =
        (s2, List.replicate (cobsSpec D).length Error.OK ++
          [(emitPacket s (D.take (D.length - 4))).1],
         (emitPacket s (D.take (D.length - 4))).2) ∧
      s2.rxIndex = 0 ∧ s2.rxBuffer.length = M ∧ s2.cb = s.cb := by
  have hnz := cobsSpec_nonzero D
  have hne := cobsSpec_ne_nil D
  have hwblen : (writeBytes s.rxBuffer 0 (cobsSpec D)).length = s.rxBuffer.length :=
    writeBytes_length _ _ _
  have hw := writeBytes_closed (cobsSpec D) s.rxBuffer 0 (by omega)
  have htakeE : (writeBytes s.rxBuffer 0 (cobsSpec D)).take (cobsSpec D).length =
      cobsSpec D := by
    rw [hw, List.take_zero, List.nil_append]
    exact List.take_left' rfl
  have hg : ghostDec ((writeBytes s.rxBuffer 0 (cobsSpec D)).take
      (cobsSpec D).length) = some D := by
    rw [htakeE]
    exact ghostDec_cobsSpec D
  obtain ⟨buf2, hdec, hlen2, htake2⟩ :=
    (cobsDecodeInPlace_ghost (writeBytes s.rxBuffer 0 (cobsSpec D))
      (cobsSpec D).length (by omega)).2 D hg
  have htakem : buf2.take D.length = D.take D.length := by
    rw [List.take_length]
    exact htake2
  have hrecv : read_u32_at buf2 (D.length - 4) = read_u32_at D (D.length - 4) :=
    read_u32_at_eq_of_take_eq buf2 D D.length (D.length - 4) htakem (by omega)
  have hcomp : buf2.take (D.length - 4) = D.take (D.length - 4) :=
    take_eq_of_take_eq buf2 D D.length (D.length - 4) htakem (by omega)
  have hacc := processBytes_accumulate M (cobsSpec D) s hnz (by omega)
  rw [hs] at hacc
  have hpb : processByte M ({ s with rxBuffer := writeBytes s.rxBuffer 0 (cobsSpec D), rxIndex := 0 + (cobsSpec D).length }) 0 =
      ({ s with rxBuffer := buf2, rxIndex := 0 },
        (emitPacket s (D.take (D.length - 4))).1,
        (emitPacket s (D.take (D.length - 4))).2) := by
    rw [processByte]
    rw [if_pos rfl]
    rw [if_neg (by simp; intro h0; rw [h0] at hne; exact hne rfl)]
    simp only [Nat.zero_add]
    simp only [hdec]
    rw [if_neg (by omega)]
    rw [hrecv, hcomp, hcrc]
    rw [if_neg (by simp)]
    rfl
  refine ⟨{ s with rxBuffer := buf2, rxIndex := 0 }, ?_, rfl, by rw [hlen2, hwblen, hlen], rfl⟩
  refine processBytes_append M [0] (cobsSpec D) s _ _ _ _ _ _ hacc ?_
  rw [processBytes, hpb]
  rw [processBytes]
  simp

/-! ## Decoder and `processByte` state invariants -/

theorem decodeLoop_length : ∀ (fuel : Nat) (buf : List Nat) (encLen ri wi : Nat)
    (buf2 : List Nat) (k : Nat),
    decodeLoop fuel buf encLen ri wi = some (buf2, k) → buf2.length = buf.length := by
  intro fuel
  induction fuel with
  | zero =>
    intro buf encLen ri wi buf2 k h
    rw [decodeLoop] at h
    split_ifs at h
    simp at h
    rw [← h.1]
  | succ fuel ih =>
    intro buf encLen ri wi buf2 k h
    rw [decodeLoop] at h
    simp only at h
    split_ifs at h with h1 h2 h3 h4
    · have := ih _ _ _ _ _ _ h
      rw [this, List.length_set, copySeg_length]
    · have := ih _ _ _ _ _ _ h
      rw [this, copySeg_length]
    · simp at h
      rw [← h.1]

theorem processByte_cb_len (M : Nat) (s : FramerState) (b : Nat) :
    ((processByte M s b).1).cb = s.cb ∧
    ((processByte M s b).1).rxBuffer.length = s.rxBuffer.length := by
  rw [processByte]
  split_ifs with h1 h2 h3
  · exact ⟨rfl, rfl⟩
  · rcases hdec : cobsDecodeInPlace s.rxBuffer s.rxIndex with _ | ⟨buf, dl⟩
    · simp
    · have hlen : buf.length = s.rxBuffer.length := by
        rw [cobsDecodeInPlace] at hdec
        exact decodeLoop_length _ _ _ _ _ _ _ hdec
      simp only
      split_ifs
      · exact ⟨rfl, hlen⟩
      · exact ⟨rfl, hlen⟩
      · exact ⟨rfl, hlen⟩
  · exact ⟨rfl, rfl⟩
  · exact ⟨rfl, by simp⟩

theorem processByte_reset (M : Nat) (s : FramerState) (b : Nat)
    (h : (processByte M s b).2.1 ≠ Error.OK) :
    ((processByte M s b).1).rxIndex = 0 := by
  rw [processByte] at h ⊢
  split_ifs at h ⊢ with h1 h2 h3
  · exact absurd rfl h
  · rcases hdec : cobsDecodeInPlace s.rxBuffer s.rxIndex with _ | ⟨buf, dl⟩
    · simp
    · simp only
      split_ifs
      · rfl
      · rfl
      · rfl
  · rfl
  · exact absurd rfl h

/-! ## Feeding a corrupted packet: CRC mismatch, no callback -/

theorem feedBadPacket (M : Nat) (s : FramerState) (D : List Nat)
    (hs : s.rxIndex = 0) (hlen : s.rxBuffer.length = M)
    (hfit : (cobsSpec D).length ≤ M)
    (hD4 : 4 ≤ D.length)
    (hcrc : read_u32_at D (D.length - 4) ≠ crc32_iso_hdlc (D.take (D.length - 4))) :
    ∃ s2, processBytes M s (cobsSpec D ++ [0]) =
        (s2, List.replicate (cobsSpec D).length Error.OK ++ [Error.CrcMismatch], []) ∧
      s2.rxIndex = 0 ∧ s2.rxBuffer.length = M ∧ s2.cb = s.cb := by
  have hnz := cobsSpec_nonzero D
  have hne := cobsSpec_ne_nil D
  have hwblen : (writeBytes s.rxBuffer 0 (cobsSpec D)).length = s.rxBuffer.length :=
    writeBytes_length _ _ _
  have hw := writeBytes_closed (cobsSpec D) s.rxBuffer 0 (by omega)
  have htakeE : (writeBytes s.rxBuffer 0 (cobsSpec D)).take (cobsSpec D).length =
      cobsSpec D := by
    rw [hw, List.take_zero, List.nil_append]
    exact List.take_left' rfl
  have hg : ghostDec ((writeBytes s.rxBuffer 0 (cobsSpec D)).take
      (cobsSpec D).length) = some D := by
    rw [htakeE]
    exact ghostDec_cobsSpec D
  obtain ⟨buf2, hdec, hlen2, htake2⟩ :=
    (cobsDecodeInPlace_ghost (writeBytes s.rxBuffer 0 (cobsSpec D))
      (cobsSpec D).length (by omega)).2 D hg
  have htakem : buf2.take D.length = D.take D.length := by
    rw [List.take_length]
    exact htake2
  have hrecv : read_u32_at buf2 (D.length - 4) = read_u32_at D (D.length - 4) :=
    read_u32_at_eq_of_take_eq buf2 D D.length (D.length - 4) htakem (by omega)
  have hcomp : buf2.take (D.length - 4) = D.take (D.length - 4) :=
    take_eq_of_take_eq buf2 D D.length (D.length - 4) htakem (by omega)
  have hacc := processBytes_accumulate M (cobsSpec D) s hnz (by omega)
  rw [hs] at hacc
  have hpb : processByte M ({ s with rxBuffer := writeBytes s.rxBuffer 0 (cobsSpec D), rxIndex := 0 + (cobsSpec D).length }) 0 =
      ({ s with rxBuffer := buf2, rxIndex := 0 }, Error.CrcMismatch, []) := by
    rw [processByte]
    rw [if_pos rfl]
    rw [if_neg (by simp; intro h0; rw [h0] at hne; exact hne rfl)]
    simp only [Nat.zero_add]
    simp only [hdec]
    rw [if_neg (by omega)]
    rw [hrecv, hcomp]
    rw [if_pos hcrc]
  refine ⟨{ s with rxBuffer := buf2, rxIndex := 0 }, ?_, rfl, by rw [hlen2, hwblen, hlen], rfl⟩
  refine processBytes_append M [0] (cobsSpec D) s _ _ _ _ _ _ hacc ?_
  rw [processBytes, hpb]
  rw [processBytes]
  simp

/-! ## Decoded-length formula (non-final 0xFF groups) -/

theorem ffNFAux_nil (fuel : Nat) : ffNFAux fuel [] = 0 := by
  cases fuel <;> rfl

theorem ffNFAux_fuel : ∀ (f1 : Nat) (l : List Nat) (f2 : Nat),
    l.length ≤ f1 → l.length ≤ f2 → ffNFAux f1 l = ffNFAux f2 l := by
  intro f1
  induction f1 with
  | zero =>
    intro l f2 h1 _
    have : l = [] := by
      cases l
      · rfl
      · simp at h1
    rw [this, ffNFAux_nil, ffNFAux_nil]
  | succ f1 ih =>
    intro l f2 h1 h2
    cases l with
    | nil => rw [ffNFAux_nil, ffNFAux_nil]
    | cons code rest =>
      cases f2 with
      | zero => simp at h2
      | succ f2 =>
        simp only [ffNFAux]
        by_cases hc0 : code = 0
        · rw [if_pos hc0, if_pos hc0]
        · rw [if_neg hc0, if_neg hc0]
          by_cases hcle : code - 1 ≤ rest.length
          · rw [if_pos hcle, if_pos hcle,
              ih (rest.drop (code - 1)) f2
                (by rw [List.length_drop]; simp at h1; omega)
                (by rw [List.length_drop]; simp at h2; omega)]
          · rw [if_neg hcle, if_neg hcle]

theorem ffNF_nil : ffNF [] = 0 := rfl

theorem ffNF_cons (code : Nat) (rest : List Nat) :
    ffNF (code :: rest) =
      if code = 0 then 0
      else if code - 1 ≤ rest.length then
        (if code = 255 ∧ rest.drop (code - 1) ≠ [] then 1 else 0) +
          ffNF (rest.drop (code - 1))
      else 0 := by
  rw [ffNF, List.length_cons]
  simp only [ffNFAux]
  by_cases hc0 : code = 0
  · rw [if_pos hc0, if_pos hc0]
  · rw [if_neg hc0, if_neg hc0]
    by_cases hcle : code - 1 ≤ rest.length
    · rw [if_pos hcle, if_pos hcle, ffNF,
        ffNFAux_fuel rest.length (rest.drop (code - 1)) (rest.drop (code - 1)).length
          (by rw [List.length_drop]; omega) (le_refl _)]
    · rw [if_neg hcle, if_neg hcle]

theorem ghostDec_ffNF : ∀ (n : Nat) (l : List Nat) (out : List Nat),
    l.length ≤ n → l ≠ [] → ghostDec l = some out →
    out.length + 1 + ffNF l = l.length := by
  intro n
  induction n with
  | zero =>
    intro l out h1 hne _
    cases l
    · exact absurd rfl hne
    · simp at h1
  | succ n ih =>
    intro l out h1 hne hg
    cases l with
    | nil => exact absurd rfl hne
    | cons code rest =>
      rw [ghostDec_cons] at hg
      by_cases hc0 : code = 0
      · rw [if_pos hc0] at hg
        exact absurd hg (by simp)
      rw [if_neg hc0] at hg
      by_cases hcle : code - 1 ≤ rest.length
      swap
      · rw [if_neg hcle] at hg
        exact absurd hg (by simp)
      rw [if_pos hcle] at hg
      rcases hsub : ghostDec (rest.drop (code - 1)) with _ | t
      · rw [hsub] at hg
        exact absurd hg (by simp)
      rw [hsub] at hg
      simp only at hg
      rw [ffNF_cons, if_neg hc0, if_pos hcle]
      by_cases hnil : rest.drop (code - 1) = []
      · have hrlen : rest.length = code - 1 := by
          have := List.drop_eq_nil_iff.mp hnil
          omega
        have ht : t = [] := by
          rw [hnil, ghostDec_nil] at hsub
          injection hsub with h
          exact h.symm
        rw [if_neg (by simp [hnil])] at hg
        have hout : out = rest.take (code - 1) ++ t := by
          injection hg with h
          exact h.symm
        rw [hout, ht, hnil, ffNF_nil, if_neg (by simp [hnil])]
        simp only [List.append_nil, List.length_take, List.length_cons]
        omega
      · have hsublen : (rest.drop (code - 1)).length = rest.length - (code - 1) :=
          List.length_drop (code - 1) rest
        have hih := ih (rest.drop (code - 1)) t
          (by rw [hsublen]; simp at h1; omega) hnil hsub
        by_cases h255 : code = 255
        · rw [if_neg (by simp [h255])] at hg
          have hout : out = rest.take (code - 1) ++ t := by
            injection hg with h
            exact h.symm
          rw [hout, if_pos ⟨h255, hnil⟩]
          simp only [List.length_append, List.length_take, List.length_cons]
          omega
        · rw [if_pos ⟨h255, hnil⟩] at hg
          have hout : out = rest.take (code - 1) ++ 0 :: t := by
            injection hg with h
            exact h.symm
          rw [hout, if_neg (by simp [h255])]
          simp only [List.length_append, List.length_take, List.length_cons]
          omega

theorem cobsDecodeInPlace_length_formula (buf : List Nat) (encLen : Nat)
    (buf2 : List Nat) (k : Nat) (h1 : 1 ≤ encLen) (h2 : encLen ≤ buf.length)
    (hdec : cobsDecodeInPlace buf encLen = some (buf2, k)) :
    k = encLen - 1 - ffNF (buf.take encLen) := by
  have hg := cobsDecodeInPlace_ghost buf encLen h2
  rcases hghost : ghostDec (buf.take encLen) with _ | out
  · rw [hg.1 hghost] at hdec
    exact absurd hdec (by simp)
  · obtain ⟨buf2', hrun, _, _⟩ := hg.2 out hghost
    rw [hrun] at hdec
    have hk : k = out.length := by
      injection hdec with h
      injection h with ha hb
      exact hb.symm
    have htlen : (buf.take encLen).length = encLen := by
      rw [List.length_take]
      omega
    have hne : buf.take encLen ≠ [] := by
      intro h0
      rw [h0] at htlen
      simp at htlen
      omega
    have := ghostDec_ffNF (buf.take encLen).length (buf.take encLen) out
      (le_refl _) hne hghost
    rw [htlen] at this
    omega

/-! ## CRC-32 is xor-linear and detects any single-byte change -/

theorem crc32Byte_eq_rounds8 (c b : Nat) : crc32Byte c b = crc32Rounds8 (c ^^^ b) := rfl

theorem mod_two_xor (x y : Nat) : (x ^^^ y) % 2 = (x % 2) ^^^ (y % 2) := by
  rw [← Nat.and_one_is_mod, ← Nat.and_one_is_mod, ← Nat.and_one_is_mod,
    Nat.and_xor_distrib_right]

theorem div_two_xor (x y : Nat) : (x ^^^ y) / 2 = x / 2 ^^^ y / 2 := by
  apply Nat.eq_of_testBit_eq
  intro i
  rw [Nat.testBit_div_two, Nat.testBit_xor, Nat.testBit_xor,
    Nat.testBit_div_two, Nat.testBit_div_two]

theorem xor_cancel_mid (c b c' : Nat) : (c ^^^ b) ^^^ (c' ^^^ b) = c ^^^ c' := by
  rw [Nat.xor_comm c' b, ← Nat.xor_assoc, Nat.xor_assoc c b b, Nat.xor_self,
    Nat.xor_zero]

theorem crc32Round_linear (x y : Nat) :
    crc32Round (x ^^^ y) = crc32Round x ^^^ crc32Round y := by
  rw [crc32Round, crc32Round, crc32Round]
  have hm := mod_two_xor x y
  rcases Nat.mod_two_eq_zero_or_one x with hx | hx <;>
    rcases Nat.mod_two_eq_zero_or_one y with hy | hy
  · rw [if_neg (by rw [hm, hx, hy]; decide), if_neg (by omega), if_neg (by omega),
      div_two_xor]
  · rw [if_pos (by rw [hm, hx, hy]; decide), if_neg (by omega), if_pos hy,
      div_two_xor, Nat.xor_assoc]
  · rw [if_pos (by rw [hm, hx, hy]; decide), if_pos hx, if_neg (by omega),
      div_two_xor, Nat.xor_assoc, Nat.xor_assoc, Nat.xor_comm (y / 2)]
  · rw [if_neg (by rw [hm, hx, hy]; decide), if_pos hx, if_pos hy, div_two_xor,
      xor_cancel_mid]

theorem crc32RoundsN_linear (n : Nat) : ∀ (x y : Nat),
    (List.range n).foldl (fun c _ => crc32Round c) (x ^^^ y) =
      (List.range n).foldl (fun c _ => crc32Round c) x ^^^
        (List.range n).foldl (fun c _ => crc32Round c) y := by
  induction n with
  | zero => intro x y; rfl
  | succ n ih =>
    intro x y
    rw [List.range_succ, List.foldl_append, List.foldl_append, List.foldl_append]
    simp only [List.foldl_cons, List.foldl_nil]
    rw [ih, crc32Round_linear]

theorem crc32Rounds8_linear (x y : Nat) :
    crc32Rounds8 (x ^^^ y) = crc32Rounds8 x ^^^ crc32Rounds8 y :=
  crc32RoundsN_linear 8 x y

theorem crc32Round_eq_zero (c : Nat) (hc : c < 2 ^ 32) (h : crc32Round c = 0) :
    c = 0 := by
  rw [crc32Round] at h
  split_ifs at h with hb
  · have := Nat.xor_eq_zero.mp h
    omega
  · omega

theorem crc32RoundsN_lt (n : Nat) : ∀ (x : Nat), x < 2 ^ 32 →
    (List.range n).foldl (fun c _ => crc32Round c) x < 2 ^ 32 := by
  induction n with
  | zero => intro x hx; simpa using hx
  | succ n ih =>
    intro x hx
    rw [List.range_succ, List.foldl_append]
    simp only [List.foldl_cons, List.foldl_nil]
    exact crc32Round_lt _ (ih x hx)

theorem crc32RoundsN_eq_zero (n : Nat) : ∀ (c : Nat), c < 2 ^ 32 →
    (List.range n).foldl (fun c _ => crc32Round c) c = 0 → c = 0 := by
  induction n with
  | zero => intro c _ h; simpa using h
  | succ n ih =>
    intro c hc h
    rw [List.range_succ, List.foldl_append] at h
    simp only [List.foldl_cons, List.foldl_nil] at h
    exact ih c hc (crc32Round_eq_zero _ (crc32RoundsN_lt n c hc) h)

theorem crc32Rounds8_eq_zero (c : Nat) (hc : c < 2 ^ 32) (h : crc32Rounds8 c = 0) :
    c = 0 :=
  crc32RoundsN_eq_zero 8 c hc h

theorem crc32Byte_delta (c c' b : Nat) :
    crc32Byte c b ^^^ crc32Byte c' b = crc32Rounds8 (c ^^^ c') := by
  rw [crc32Byte_eq_rounds8, crc32Byte_eq_rounds8, ← crc32Rounds8_linear,
    xor_cancel_mid]

theorem crc32Byte_delta_byte (c x y : Nat) :
    crc32Byte c x ^^^ crc32Byte c y = crc32Rounds8 (x ^^^ y) := by
  rw [crc32Byte_eq_rounds8, crc32Byte_eq_rounds8, ← crc32Rounds8_linear]
  congr 1
  rw [Nat.xor_comm c x, Nat.xor_comm c y, xor_cancel_mid]

theorem crc32_foldl_lt (l : List Nat) : ∀ (c : Nat), (∀ x ∈ l, x < 256) →
    c < 2 ^ 32 → l.foldl crc32Byte c < 2 ^ 32 := by
  induction l with
  | nil => intro c _ hc; simpa using hc
  | cons b rest ih =>
    intro c hl hc
    rw [List.foldl_cons]
    exact ih _ (fun x hx => hl x (by simp [hx]))
      (crc32Byte_lt c b hc (hl b (by simp)))

theorem crc32_foldl_ne (B : List Nat) : ∀ (c c' : Nat), c < 2 ^ 32 → c' < 2 ^ 32 →
    (∀ x ∈ B, x < 256) → c ≠ c' →
    B.foldl crc32Byte c ≠ B.foldl crc32Byte c' := by
  induction B with
  | nil => intro c c' _ _ _ hne; simpa using hne
  | cons b rest ih =>
    intro c c' hc hc' hB hne
    rw [List.foldl_cons, List.foldl_cons]
    have hb : b < 256 := hB b (by simp)
    refine ih _ _ (crc32Byte_lt c b hc hb) (crc32Byte_lt c' b hc' hb)
      (fun x hx => hB x (by simp [hx])) ?_
    intro heq
    have hz : crc32Byte c b ^^^ crc32Byte c' b = 0 := by
      rw [heq, Nat.xor_self]
    rw [crc32Byte_delta] at hz
    exact hne (Nat.xor_eq_zero.mp
      (crc32Rounds8_eq_zero _ (Nat.xor_lt_two_pow hc hc') hz))

theorem crc32_single_byte_ne (A B : List Nat) (x y : Nat)
    (hA : ∀ t ∈ A, t < 256) (hB : ∀ t ∈ B, t < 256)
    (hx : x < 256) (hy : y < 256) (hxy : x ≠ y) :
    crc32_iso_hdlc (A ++ x :: B) ≠ crc32_iso_hdlc (A ++ y :: B) := by
  rw [crc32_iso_hdlc, crc32_iso_hdlc]
  intro h
  have h2 : (A ++ x :: B).foldl crc32Byte 0xFFFFFFFF =
      (A ++ y :: B).foldl crc32Byte 0xFFFFFFFF := by
    have := congrArg (· ^^^ 0xFFFFFFFF) h
    simpa [Nat.xor_cancel_right] using this
  rw [List.foldl_append, List.foldl_append, List.foldl_cons, List.foldl_cons] at h2
  have hc0 : A.foldl crc32Byte 0xFFFFFFFF < 2 ^ 32 :=
    crc32_foldl_lt A _ hA (by norm_num)
  refine crc32_foldl_ne B _ _ (crc32Byte_lt _ _ hc0 hx) (crc32Byte_lt _ _ hc0 hy)
    hB ?_ h2
  intro heq
  have hz : crc32Byte (A.foldl crc32Byte 0xFFFFFFFF) x ^^^
      crc32Byte (A.foldl crc32Byte 0xFFFFFFFF) y = 0 := by
    rw [heq, Nat.xor_self]
  rw [crc32Byte_delta_byte] at hz
  exact hxy (Nat.xor_eq_zero.mp
    (crc32Rounds8_eq_zero _ (Nat.xor_lt_two_pow (by omega) (by omega)) hz))

theorem crc32_set_ne (F : List Nat) (q b : Nat) (hq : q < F.length)
    (hF : ∀ t ∈ F, t < 256) (hb : b < 256) (hne : b ≠ F.getD q 0) :
    crc32_iso_hdlc (F.set q b) ≠ crc32_iso_hdlc F := by
  have hget : F.getD q 0 = F.get ⟨q, hq⟩ := by
    rw [List.getD_eq_getElem?_getD, List.getElem?_eq_getElem hq]
    rfl
  have hFsplit : F = F.take q ++ F.getD q 0 :: F.drop (q + 1) := by
    rw [hget]
    conv_lhs => rw [← List.take_append_drop q F]
    congr 1
    exact (List.getElem_cons_drop F q hq).symm
  have hset : F.set q b = F.take q ++ b :: F.drop (q + 1) :=
    List.set_eq_take_cons_drop b hq
  rw [hset]
  conv_rhs => rw [hFsplit]
  exact crc32_single_byte_ne (F.take q) (F.drop (q + 1)) b (F.getD q 0)
    (fun t ht => hF t (List.mem_of_mem_take ht))
    (fun t ht => hF t (List.mem_of_mem_drop ht))
    hb (by rw [hget]; exact hF _ (List.get_mem F q hq)) hne

/-! ## A single-byte change to the CRC-protected content fails the CRC check -/

theorem tamper_crc_ne (F : List Nat) (q b : Nat)
    (hF : ∀ t ∈ F, t < 256) (hb : b < 256) (hq : q < F.length + 4)
    (hne : b ≠ (F ++ u32beBytes (crc32_iso_hdlc F)).getD q 0) :
    read_u32_at ((F ++ u32beBytes (crc32_iso_hdlc F)).set q b)
        (((F ++ u32beBytes (crc32_iso_hdlc F)).set q b).length - 4) ≠
      crc32_iso_hdlc (((F ++ u32beBytes (crc32_iso_hdlc F)).set q b).take
        (((F ++ u32beBytes (crc32_iso_hdlc F)).set q b).length - 4)) := by
  have hc32 : crc32_iso_hdlc F < 2 ^ 32 := crc32_lt F hF
  have hDlen : ((F ++ u32beBytes (crc32_iso_hdlc F)).set q b).length = F.length + 4 := by
    rw [List.length_set, List.length_append, u32beBytes_length]
  rw [hDlen]
  have hidx : F.length + 4 - 4 = F.length := by omega
  rw [hidx]
  by_cases hqF : q < F.length
  · have htake : ((F ++ u32beBytes (crc32_iso_hdlc F)).set q b).take F.length =
        F.set q b := by
      rw [List.set_take]
      congr 1
      exact List.take_left F _
    have hdrop : ((F ++ u32beBytes (crc32_iso_hdlc F)).set q b).drop F.length =
        u32beBytes (crc32_iso_hdlc F) := by
      rw [drop_set_of_lt _ _ _ _ hqF]
      exact List.drop_left F _
    have hrecv : read_u32_at ((F ++ u32beBytes (crc32_iso_hdlc F)).set q b) F.length =
        crc32_iso_hdlc F := by
      refine read_u32_at_window _ _ _ hc32 ?_
      rw [hdrop, ← u32beBytes_length (crc32_iso_hdlc F), List.take_length]
    rw [hrecv, htake]
    have hbne : b ≠ F.getD q 0 := by
      intro h
      apply hne
      rw [h, List.getD_eq_getElem?_getD, List.getD_eq_getElem?_getD,
        List.getElem?_append_left hqF]
    exact fun h => crc32_set_ne F q b hqF hF hb hbne h.symm
  · have hqge : F.length ≤ q := by omega
    have htake : ((F ++ u32beBytes (crc32_iso_hdlc F)).set q b).take F.length =
        F := by
      rw [take_set_of_le _ _ _ _ hqge]
      exact List.take_left F _
    rw [htake]
    have hdrop : ((F ++ u32beBytes (crc32_iso_hdlc F)).set q b).drop F.length =
        (u32beBytes (crc32_iso_hdlc F)).set (q - F.length) b := by
      rw [List.drop_set, if_neg (by omega)]
      congr 1
      exact List.drop_left F _
    have hread : read_u32_at ((F ++ u32beBytes (crc32_iso_hdlc F)).set q b) F.length =
        read_u32_at ((u32beBytes (crc32_iso_hdlc F)).set (q - F.length) b) 0 := by
      rw [read_u32_at, read_u32_at, ← hdrop]
      rw [getD_drop, getD_drop, getD_drop, getD_drop]
      simp
    rw [hread]
    have hne2 : b ≠ (u32beBytes (crc32_iso_hdlc F)).getD (q - F.length) 0 := by
      intro h
      apply hne
      have h1 := getD_drop (F ++ u32beBytes (crc32_iso_hdlc F)) F.length (q - F.length)
      rw [List.drop_left F _] at h1
      rw [h, h1, show F.length + (q - F.length) = q from by omega]
    intro hcontra
    have hi4 : q - F.length < 4 := by omega
    set c := crc32_iso_hdlc F with hc
    interval_cases h : q - F.length
    · simp only [u32beBytes, read_u32_at, List.set] at hcontra hne2
      simp at hcontra hne2
      omega
    · simp only [u32beBytes, read_u32_at, List.set] at hcontra hne2
      simp at hcontra hne2
      omega
    · simp only [u32beBytes, read_u32_at, List.set] at hcontra hne2
      simp at hcontra hne2
      omega
    · simp only [u32beBytes, read_u32_at, List.set] at hcontra hne2
      simp at hcontra hne2
      omega
/-! ## A well-formed packet passes the CRC check -/

theorem packet_crc_ok (F : List Nat) (hF : ∀ t ∈ F, t < 256) :
    read_u32_at (F ++ u32beBytes (crc32_iso_hdlc F))
        ((F ++ u32beBytes (crc32_iso_hdlc F)).length - 4) =
      crc32_iso_hdlc ((F ++ u32beBytes (crc32_iso_hdlc F)).take
        ((F ++ u32beBytes (crc32_iso_hdlc F)).length - 4)) := by
  have hDlen : (F ++ u32beBytes (crc32_iso_hdlc F)).length = F.length + 4 := by
    rw [List.length_append, u32beBytes_length]
  rw [hDlen, show F.length + 4 - 4 = F.length from by omega, List.take_left F _]
  refine read_u32_at_window _ _ _ (crc32_lt F hF) ?_
  rw [List.drop_left F _, ← u32beBytes_length (crc32_iso_hdlc F), List.take_length]

/-! ## Encoder success characterization and buffer-content independence -/

theorem put_inv' (e : CobsEncoder) (f run : List Nat) (b : Nat) (e1 : CobsEncoder)
    (hinv : EncInv e f run) (h : e.put b = some e1) :
    EncInv e1 (cobsStep (f, run) b).1 (cobsStep (f, run) b).2 ∧
      e1.cap = e.cap ∧ e1.out.length = e.out.length := by
  have hwiE := hinv.2.2.1
  have hcodeE := hinv.2.2.2.1
  have hrunE := hinv.2.2.2.2.1
  have hcap : (cobsStep (f, run) b).1.length + (cobsStep (f, run) b).2.length + 1 ≤
      e.cap := by
    simp only [CobsEncoder.put] at h
    by_cases hb : b = 0
    · rw [if_pos hb] at h
      by_cases hge : e.writeIndex ≥ e.cap
      · rw [if_pos hge] at h
        exact absurd h (by simp)
      · subst hb
        have hstep : cobsStep (f, run) 0 = (f ++ (run.length + 1) :: run, []) := by
          simp [cobsStep]
        rw [hstep]
        simp only [List.length_append, List.length_cons, List.length_nil]
        omega
    · rw [if_neg hb] at h
      by_cases hge : e.writeIndex ≥ e.cap
      · rw [if_pos hge] at h
        exact absurd h (by simp)
      rw [if_neg hge] at h
      by_cases hff : e.code + 1 = 0xFF
      · rw [if_pos hff] at h
        by_cases hge2 : e.writeIndex + 1 ≥ e.cap
        · rw [if_pos hge2] at h
          exact absurd h (by simp)
        have hflush : run.length = 253 := by omega
        have hstep : cobsStep (f, run) b = (f ++ 255 :: (run ++ [b]), []) := by
          simp [cobsStep, hb, hflush]
        rw [hstep]
        simp only [List.length_append, List.length_cons, List.length_nil]
        omega
      · rw [if_neg hff] at h
        have hflush : ¬ run.length = 253 := by omega
        have hstep : cobsStep (f, run) b = (f, run ++ [b]) := by
          simp [cobsStep, hb, hflush]
        rw [hstep]
        simp only [List.length_append, List.length_cons, List.length_nil]
        omega
  obtain ⟨e1', hput, hinv1, hcap1, hlen1⟩ := put_inv e f run b hinv hcap
  rw [h] at hput
  injection hput with he
  rw [he]
  exact ⟨hinv1, hcap1, hlen1⟩

theorem puts_some_inv (S : List Nat) : ∀ (e e1 : CobsEncoder) (f run : List Nat),
    EncInv e f run → e.puts S = some e1 →
    EncInv e1 (S.foldl cobsStep (f, run)).1 (S.foldl cobsStep (f, run)).2 ∧
      e1.cap = e.cap ∧ e1.out.length = e.out.length := by
  induction S with
  | nil =>
    intro e e1 f run hinv h
    rw [CobsEncoder.puts] at h
    injection h with he
    subst he
    exact ⟨hinv, rfl, rfl⟩
  | cons b rest ih =>
    intro e e1 f run hinv h
    rw [CobsEncoder.puts] at h
    rcases hput : e.put b with _ | e2
    · rw [hput] at h
      exact absurd h (by simp)
    rw [hput] at h
    obtain ⟨hinv2, hcap2, hlen2⟩ := put_inv' e f run b e2 hinv hput
    obtain ⟨hinv3, hcap3, hlen3⟩ := ih e2 e1 _ _ hinv2 h
    have hfoldeq : rest.foldl cobsStep ((cobsStep (f, run) b).1, (cobsStep (f, run) b).2) =
        rest.foldl cobsStep (cobsStep (f, run) b) := by rw [Prod.mk.eta]
    rw [hfoldeq] at hinv3
    simp only [List.foldl_cons]
    exact ⟨hinv3, by rw [hcap3, hcap2], by rw [hlen3, hlen2]⟩

theorem cobsEncode2_some (A B buf out : List Nat) (L : Nat)
    (h : cobsEncode2 A B buf = some (out, L)) :
    L = (cobsSpec (A ++ B)).length ∧ out.length = buf.length ∧ L ≤ buf.length ∧
      out.take L = cobsSpec (A ++ B) := by
  rw [cobsEncode2] at h
  rcases hbeg : CobsEncoder.begin buf with _ | e0
  · rw [hbeg] at h
    exact absurd h (by simp)
  rw [hbeg] at h
  have hlen1 : 1 ≤ buf.length := by
    rw [CobsEncoder.begin] at hbeg
    by_cases h0 : buf.length = 0
    · rw [if_pos h0] at hbeg
      exact absurd hbeg (by simp)
    · omega
  obtain ⟨e0', hbeg', hinv0, hcap0, hlen0⟩ := begin_inv buf hlen1
  rw [hbeg'] at hbeg
  injection hbeg with he0
  subst he0
  simp only at h
  rcases hpA : e0'.puts A with _ | eA
  · rw [hpA] at h
    exact absurd h (by simp)
  rw [hpA] at h
  simp only at h
  rcases hpB : eA.puts B with _ | eB
  · rw [hpB] at h
    exact absurd h (by simp)
  rw [hpB] at h
  simp only at h
  have hputsAB : e0'.puts (A ++ B) = some eB := by
    rw [puts_append, hpA]
    exact hpB
  obtain ⟨hinvB, hcapB, hlenB⟩ := puts_some_inv (A ++ B) e0' eB [] [] hinv0 hputsAB
  have hfold : (A ++ B).foldl cobsStep ([], []) = cobsSpecAux (A ++ B) := rfl
  rw [hfold] at hinvB
  obtain ⟨hfe, hftake, hflen⟩ := fin_inv eB _ _ hinvB
  rw [hfe] at h
  injection h with hpair
  have hout : eB.out.set (cobsSpecAux (A ++ B)).1.length
      ((cobsSpecAux (A ++ B)).2.length + 1) = out := congrArg Prod.fst hpair
  have hL : (cobsSpecAux (A ++ B)).1.length + (cobsSpecAux (A ++ B)).2.length + 1 = L :=
    congrArg Prod.snd hpair
  have hwc := hinvB.2.2.2.2.2.2.2
  have hwiB := hinvB.2.2.1
  refine ⟨?_, ?_, ?_, ?_⟩
  · rw [← hL, cobsSpec_length_aux]
  · rw [← hout, List.length_set, hlenB, hlen0]
  · rw [← hL, ← hwiB]
    rw [hcapB, hcap0] at hwc
    exact hwc
  · rw [← hout, ← hL]
    rw [hftake, cobsSpec]

theorem createPacket_congr (F b1 b2 : List Nat) (hlen : b1.length = b2.length) :
    (createPacket F b1).1 = (createPacket F b2).1 ∧
    (createPacket F b1).2.2 = (createPacket F b2).2.2 ∧
    ((createPacket F b1).1 = Error.OK →
      (createPacket F b1).2.1.take (createPacket F b1).2.2 =
        (createPacket F b2).2.1.take (createPacket F b2).2.2) := by
  by_cases hsmall : b1.length < 2
  · rw [createPacket, createPacket, if_pos hsmall, if_pos (by omega)]
    exact ⟨rfl, by simpa using hlen, fun h => absurd h (by simp)⟩
  rw [createPacket, createPacket, if_neg hsmall, if_neg (by omega)]
  simp only
  by_cases hcap : (cobsSpec (F ++ u32beBytes (crc32_iso_hdlc F))).length ≤ b1.length
  · obtain ⟨o1, henc1, holen1, htake1⟩ :=
      cobsEncode2_spec F (u32beBytes (crc32_iso_hdlc F)) b1 hcap
    obtain ⟨o2, henc2, holen2, htake2⟩ :=
      cobsEncode2_spec F (u32beBytes (crc32_iso_hdlc F)) b2 (by omega)
    simp only [henc1, henc2]
    by_cases hge : (cobsSpec (F ++ u32beBytes (crc32_iso_hdlc F))).length ≥ b1.length
    · rw [if_pos hge, if_pos (by omega)]
      exact ⟨by first | rfl | trivial, by simpa using hlen, fun h => by simp at h⟩
    · rw [if_neg hge, if_neg (by omega)]
      refine ⟨rfl, rfl, fun _ => ?_⟩
      rw [take_succ_set _ _ _ (by omega), take_succ_set _ _ _ (by omega),
        htake1, htake2]
  · rcases henc1 : cobsEncode2 F (u32beBytes (crc32_iso_hdlc F)) b1 with _ | ⟨o1, L1⟩
    · rcases henc2 : cobsEncode2 F (u32beBytes (crc32_iso_hdlc F)) b2 with _ | ⟨o2, L2⟩
      · simp only [henc1, henc2]
        exact ⟨by first | rfl | trivial, by simpa using hlen, fun h => by simp at h⟩
      · obtain ⟨_, _, hle2, _⟩ := cobsEncode2_some _ _ _ _ _ henc2
        omega
    · obtain ⟨_, _, hle1, _⟩ := cobsEncode2_some _ _ _ _ _ henc1
      omega

/-! ## In-place decode write/state safety (instrumentation) -/

theorem copyEvents_safe (k : Nat) : ∀ (r w : Nat), w ≤ r →
    ∀ pr ∈ copyEvents r w k, pr.1 < pr.2 := by
  induction k with
  | zero =>
    intro r w _ pr hpr
    simp [copyEvents] at hpr
  | succ k ih =>
    intro r w hwr pr hpr
    rw [copyEvents] at hpr
    rcases List.mem_cons.mp hpr with h | h
    · rw [h]
      simp
      omega
    · exact ih (r + 1) (w + 1) (by omega) pr h

theorem decodeWrites_safe : ∀ (fuel : Nat) (buf : List Nat) (encLen ri wi : Nat),
    wi ≤ ri → ∀ pr ∈ decodeWrites fuel buf encLen ri wi, pr.1 < pr.2 := by
  intro fuel
  induction fuel with
  | zero =>
    intro buf encLen ri wi _ pr hpr
    simp [decodeWrites] at hpr
  | succ fuel ih =>
    intro buf encLen ri wi hwr pr hpr
    rw [decodeWrites] at hpr
    simp only at hpr
    split_ifs at hpr with h1 h2 h3 h4
    · simp at hpr
    · rcases List.mem_append.mp hpr with h | h
      · exact copyEvents_safe _ _ _ hwr pr h
      · rcases List.mem_cons.mp h with h' | h'
        · rw [h']
          simp only
          omega
        · exact ih _ _ _ _ (by omega) pr h'
    · rcases List.mem_append.mp hpr with h | h
      · exact copyEvents_safe _ _ _ hwr pr h
      · exact ih _ _ _ _ (by omega) pr h
    · exact copyEvents_safe _ _ _ hwr pr hpr
    · simp at hpr

theorem decodeStates_safe : ∀ (fuel : Nat) (buf : List Nat) (encLen ri wi : Nat),
    wi ≤ ri → ∀ st ∈ decodeStates fuel buf encLen ri wi, st.2 ≤ st.1 := by
  intro fuel
  induction fuel with
  | zero =>
    intro buf encLen ri wi hwr st hst
    rw [decodeStates] at hst
    rcases List.mem_cons.mp hst with h | h
    · rw [h]
      exact hwr
    · simp at h
  | succ fuel ih =>
    intro buf encLen ri wi hwr st hst
    rw [decodeStates] at hst
    rcases List.mem_cons.mp hst with h | h
    · rw [h]
      exact hwr
    · simp only at h
      split_ifs at h with h1 h2 h3 h4
      · simp at h
      · exact ih _ _ _ _ (by omega) st h
      · exact ih _ _ _ _ (by omega) st h
      · simp at h
      · simp at h

/-! ## Router registration: two-pass structure -/

theorem updatePass_none {κ : Type} : ∀ (h : List (HSlot κ)) (id : Nat) (k : κ),
    updatePass h id k = none ↔ ∀ s ∈ h, ¬(s.used = true ∧ s.msgId = id) := by
  intro h id k
  induction h with
  | nil => simp [updatePass]
  | cons s rest ih =>
    rw [updatePass]
    by_cases hc : s.used = true ∧ s.msgId = id
    · rw [if_pos hc]
      constructor
      · intro hmap
        exact absurd hmap (by simp)
      · intro hall
        exact absurd hc (hall s (List.mem_cons_self s rest))
    · rw [if_neg hc]
      constructor
      · intro hmap t ht
        rcases List.mem_cons.mp ht with h' | h'
        · rw [h']
          exact hc
        · have : updatePass rest id k = none := by
            rcases hu : updatePass rest id k with _ | r
            · rfl
            · rw [hu] at hmap
              simp at hmap
          exact (ih.mp this) t h'
      · intro hall
        have : updatePass rest id k = none :=
          ih.mpr (fun t ht => hall t (List.mem_cons_of_mem s ht))
        rw [this]
        rfl

theorem updatePass_shape {κ : Type} : ∀ (h h' : List (HSlot κ)) (id : Nat) (k : κ),
    updatePass h id k = some h' →
    h'.map (fun s => (s.used, s.msgId)) = h.map (fun s => (s.used, s.msgId)) := by
  intro h
  induction h with
  | nil =>
    intro h' id k hu
    rw [updatePass] at hu
    exact absurd hu (by simp)
  | cons s rest ih =>
    intro h' id k hu
    rw [updatePass] at hu
    split_ifs at hu with hc
    · injection hu with he
      rw [← he]
      simp
    · rcases hrec : updatePass rest id k with _ | r
      · rw [hrec] at hu
        simp at hu
      · rw [hrec] at hu
        simp at hu
        rw [← hu]
        simp
        exact ih r id k hrec

theorem insertPass_none {κ : Type} : ∀ (h : List (HSlot κ)) (id : Nat) (k : κ),
    insertPass h id k = none ↔ ∀ s ∈ h, s.used = true := by
  intro h id k
  induction h with
  | nil => simp [insertPass]
  | cons s rest ih =>
    rw [insertPass]
    by_cases hc : ¬ s.used = true
    · rw [if_pos hc]
      simp
      intro h'
      exact absurd h' hc
    · rw [if_neg hc]
      simp at hc
      constructor
      · intro hmap t ht
        rcases List.mem_cons.mp ht with h' | h'
        · rw [h']
          exact hc
        · have : insertPass rest id k = none := by
            rcases hu : insertPass rest id k with _ | r
            · rfl
            · rw [hu] at hmap
              simp at hmap
          exact (ih.mp this) t h'
      · intro hall
        have : insertPass rest id k = none :=
          ih.mpr (fun t ht => hall t (List.mem_cons_of_mem s ht))
        rw [this]
        rfl

theorem insertPass_mem {κ : Type} : ∀ (h h' : List (HSlot κ)) (id : Nat) (k : κ),
    insertPass h id k = some h' →
    ∀ b ∈ h', b ∈ h ∨ b = ⟨true, id, some k⟩ := by
  intro h
  induction h with
  | nil =>
    intro h' id k hu
    rw [insertPass] at hu
    exact absurd hu (by simp)
  | cons s rest ih =>
    intro h' id k hu b hb
    rw [insertPass] at hu
    by_cases hc : s.used = true
    · rw [if_neg (fun hn => hn hc)] at hu
      rcases hrec : insertPass rest id k with _ | r
      · rw [hrec] at hu
        simp at hu
      · rw [hrec] at hu
        simp at hu
        rw [← hu] at hb
        rcases List.mem_cons.mp hb with h'' | h''
        · left
          rw [h'']
          exact List.mem_cons_self s rest
        · rcases ih r id k hrec b h'' with h3 | h3
          · left
            exact List.mem_cons_of_mem s h3
          · right
            exact h3
    · rw [if_pos hc] at hu
      injection hu with he
      rw [← he] at hb
      rcases List.mem_cons.mp hb with h'' | h''
      · right
        exact h''
      · left
        exact List.mem_cons_of_mem s h''

theorem insertPass_some_of_free {κ : Type} : ∀ (h : List (HSlot κ)) (id : Nat) (k : κ),
    (∃ s ∈ h, s.used = false) → ∃ h', insertPass h id k = some h' := by
  intro h id k hfree
  rcases hu : insertPass h id k with _ | r
  · obtain ⟨s, hs, hused⟩ := hfree
    have := (insertPass_none h id k).mp hu s hs
    rw [hused] at this
    exact absurd this (by simp)
  · exact ⟨r, rfl⟩

theorem routerInv_of_map_eq {κ : Type} (h h' : List (HSlot κ))
    (hmap : h'.map (fun s => (s.used, s.msgId)) = h.map (fun s => (s.used, s.msgId)))
    (hinv : routerInv h) : routerInv h' := by
  rw [routerInv, ← List.pairwise_map (f := fun s : HSlot κ => (s.used, s.msgId))
    (R := fun a b => a.1 = true → b.1 = true → a.2 ≠ b.2)]
  rw [hmap]
  rw [List.pairwise_map]
  exact hinv

theorem insertPass_inv {κ : Type} : ∀ (h h' : List (HSlot κ)) (id : Nat) (k : κ),
    insertPass h id k = some h' →
    (∀ s ∈ h, ¬(s.used = true ∧ s.msgId = id)) → routerInv h → routerInv h' := by
  intro h
  induction h with
  | nil =>
    intro h' id k hu
    rw [insertPass] at hu
    exact absurd hu (by simp)
  | cons s rest ih =>
    intro h' id k hu hno hinv
    rw [insertPass] at hu
    by_cases hc : ¬ s.used = true
    · rw [if_pos hc] at hu
      injection hu with he
      rw [← he]
      rw [routerInv, List.pairwise_cons]
      refine ⟨?_, (List.pairwise_cons.mp hinv).2⟩
      intro b hb _ hbu heq
      exact hno b (List.mem_cons_of_mem s hb) ⟨hbu, heq.symm⟩
    · rw [if_neg hc] at hu
      rcases hrec : insertPass rest id k with _ | r
      · rw [hrec] at hu
        simp at hu
      · rw [hrec] at hu
        simp at hu
        rw [← hu]
        rw [routerInv, List.pairwise_cons]
        constructor
        · intro b hb hsu hbu
          rcases insertPass_mem rest r id k hrec b hb with h'' | h''
          · exact (List.pairwise_cons.mp hinv).1 b h'' hsu hbu
          · rw [h'']
            intro heq
            exact hno s (List.mem_cons_self s rest) ⟨hsu, heq⟩
        · exact ih r id k hrec (fun t ht => hno t (List.mem_cons_of_mem s ht))
            (List.pairwise_cons.mp hinv).2

/-! ## Claim theorems -/

/-- C8: `Node::publish<M>(msgId, msg)` — which encodes `msg` into the TX packet
scratch and passes the aliasing span to `publish` — returns the same error code
and hands the transport exactly the same byte sequence as `Node::publish(msgId,
M::kMsgHash, p)` called on the encoding `p` produced into a separate buffer.
The hypothesis `hp` is the encode-capacity constraint (`MaxPayloadSize ≤
kMaxPacketSize`, so a successful encode fits in the scratch). -/
theorem C8_publish_typed_aliasing (wr : List Nat → Bool) (v : Nat) (st : NodeState)
    (msgId kMsgHash : Nat) (p : List Nat) (hp : p.length ≤ st.txPacket.length) :
    (publishTyped wr v st msgId kMsgHash (some p)).2.1 =
      (publish wr v st msgId kMsgHash p).2.1 ∧
    (publishTyped wr v st msgId kMsgHash (some p)).2.2 =
      (publish wr v st msgId kMsgHash p).2.2 := by
  rw [publishTyped, publishAliased, publish]
  simp only
  have hpay : (writeBytes st.txPacket 0 p).take p.length = p := by
    rw [writeBytes_closed p st.txPacket 0 (by omega), List.take_zero,
      List.nil_append]
    exact List.take_left' rfl
  rw [hpay]
  have hlens : (writeBytes st.txPacket 0 p).length = st.txPacket.length :=
    writeBytes_length _ _ _
  obtain ⟨hcE, hcL, hcT⟩ := createPacket_congr
    ((buildFrame v msgId kMsgHash p st.txFrame).2.1.take
      (buildFrame v msgId kMsgHash p st.txFrame).2.2)
    (writeBytes st.txPacket 0 p) st.txPacket hlens
  rw [← hcE]
  by_cases hwired : st.wired = true
  case neg =>
    rw [if_pos (show ¬ st.wired = true from hwired),
      if_pos (show ¬ st.wired = true from hwired)]
    exact ⟨rfl, rfl⟩
  rw [if_neg (show ¬ ¬ st.wired = true from fun hn => hn hwired),
    if_neg (show ¬ ¬ st.wired = true from fun hn => hn hwired)]
  by_cases he : (buildFrame v msgId kMsgHash p st.txFrame).1 = Error.OK
  case neg =>
    rw [if_pos (show (buildFrame v msgId kMsgHash p st.txFrame).1 ≠ Error.OK from he),
      if_pos (show (buildFrame v msgId kMsgHash p st.txFrame).1 ≠ Error.OK from he)]
    exact ⟨rfl, rfl⟩
  rw [if_neg (show ¬ (buildFrame v msgId kMsgHash p st.txFrame).1 ≠ Error.OK from
      fun hn => hn he),
    if_neg (show ¬ (buildFrame v msgId kMsgHash p st.txFrame).1 ≠ Error.OK from
      fun hn => hn he)]
  by_cases he2 : (createPacket
      ((buildFrame v msgId kMsgHash p st.txFrame).2.1.take
        (buildFrame v msgId kMsgHash p st.txFrame).2.2)
      (writeBytes st.txPacket 0 p)).1 = Error.OK
  case neg =>
    rw [if_pos (show (createPacket
        ((buildFrame v msgId kMsgHash p st.txFrame).2.1.take
          (buildFrame v msgId kMsgHash p st.txFrame).2.2)
        (writeBytes st.txPacket 0 p)).1 ≠ Error.OK from he2),
      if_pos (show (createPacket
        ((buildFrame v msgId kMsgHash p st.txFrame).2.1.take
          (buildFrame v msgId kMsgHash p st.txFrame).2.2)
        (writeBytes st.txPacket 0 p)).1 ≠ Error.OK from he2)]
    exact ⟨rfl, rfl⟩
  rw [if_neg (show ¬ (createPacket
      ((buildFrame v msgId kMsgHash p st.txFrame).2.1.take
        (buildFrame v msgId kMsgHash p st.txFrame).2.2)
      (writeBytes st.txPacket 0 p)).1 ≠ Error.OK from fun hn => hn he2),
    if_neg (show ¬ (createPacket
      ((buildFrame v msgId kMsgHash p st.txFrame).2.1.take
        (buildFrame v msgId kMsgHash p st.txFrame).2.2)
      (writeBytes st.txPacket 0 p)).1 ≠ Error.OK from fun hn => hn he2)]
  rw [hcT he2]
  by_cases hwr : wr ((createPacket
      ((buildFrame v msgId kMsgHash p st.txFrame).2.1.take
        (buildFrame v msgId kMsgHash p st.txFrame).2.2)
      st.txPacket).2.1.take (createPacket
      ((buildFrame v msgId kMsgHash p st.txFrame).2.1.take
        (buildFrame v msgId kMsgHash p st.txFrame).2.2)
      st.txPacket).2.2) = true
  · rw [if_pos hwr, if_pos hwr]
    exact ⟨rfl, rfl⟩
  · rw [if_neg hwr, if_neg hwr]
    exact ⟨rfl, rfl⟩
/-! ## Feeding an arbitrary well-formed encoding -/

theorem feedEncoded (M : Nat) (s : FramerState) (E D : List Nat)
    (hs : s.rxIndex = 0) (hlen : s.rxBuffer.length = M)
    (hfit : E.length ≤ M) (hEnz : ∀ b ∈ E, b ≠ 0) (hEne : E ≠ [])
    (hg : ghostDec E = some D) (hD4 : 4 ≤ D.length)
    (hcrc : read_u32_at D (D.length - 4) = crc32_iso_hdlc (D.take (D.length - 4))) :
    ∃ s2, processBytes M s (E ++ [0]) =
        (s2, List.replicate E.length Error.OK ++
          [(emitPacket s (D.take (D.length - 4))).1],
         (emitPacket s (D.take (D.length - 4))).2) ∧
      s2.rxIndex = 0 ∧ s2.rxBuffer.length = M ∧ s2.cb = s.cb := by
  have hwblen : (writeBytes s.rxBuffer 0 E).length = s.rxBuffer.length :=
    writeBytes_length _ _ _
  have hw := writeBytes_closed E s.rxBuffer 0 (by omega)
  have htakeE : (writeBytes s.rxBuffer 0 E).take E.length = E := by
    rw [hw, List.take_zero, List.nil_append]
    exact List.take_left' rfl
  have hgw : ghostDec ((writeBytes s.rxBuffer 0 E).take E.length) = some D := by
    rw [htakeE]
    exact hg
  obtain ⟨buf2, hdec, hlen2, htake2⟩ :=
    (cobsDecodeInPlace_ghost (writeBytes s.rxBuffer 0 E) E.length (by omega)).2 D hgw
  have htakem : buf2.take D.length = D.take D.length := by
    rw [List.take_length]
    exact htake2
  have hrecv : read_u32_at buf2 (D.length - 4) = read_u32_at D (D.length - 4) :=
    read_u32_at_eq_of_take_eq buf2 D D.length (D.length - 4) htakem (by omega)
  have hcomp : buf2.take (D.length - 4) = D.take (D.length - 4) :=
    take_eq_of_take_eq buf2 D D.length (D.length - 4) htakem (by omega)
  have hacc := processBytes_accumulate M E s hEnz (by omega)
  rw [hs] at hacc
  have hpb : processByte M ({ s with rxBuffer := writeBytes s.rxBuffer 0 E, rxIndex := 0 + E.length }) 0 =
      ({ s with rxBuffer := buf2, rxIndex := 0 },
        (emitPacket s (D.take (D.length - 4))).1,
        (emitPacket s (D.take (D.length - 4))).2) := by
    rw [processByte]
    rw [if_pos rfl]
    rw [if_neg (by simp; intro h0; rw [h0] at hEne; exact hEne rfl)]
    simp only [Nat.zero_add]
    simp only [hdec]
    rw [if_neg (by omega)]
    rw [hrecv, hcomp, hcrc]
    rw [if_neg (by simp)]
    rfl
  refine ⟨{ s with rxBuffer := buf2, rxIndex := 0 }, ?_, rfl, by rw [hlen2, hwblen, hlen], rfl⟩
  refine processBytes_append M [0] E s _ _ _ _ _ _ hacc ?_
  rw [processBytes, hpb]
  rw [processBytes]
  simp

set_option maxRecDepth 100000

/-- C3 counterexample: the frame `F = 250 × 0x41` gives a 254-byte CRC-protected
content `D`, whose COBS encoding ends in a full 0xFF group followed by the final
code byte 0x01 at packet index 255.  Flipping the low bit of that byte (0x01 →
0x00, a single-bit flip of a non-delimiter byte of the encoded region) makes the
flipped byte an early delimiter: the truncated body `0xFF ‖ D` is itself a valid
COBS encoding of `D`, the CRC check passes, and the framer delivers `F` — the
callback IS invoked, every `processByte` call returns `OK`, and no
`CrcMismatch`/`CobsDecodeFailed` is ever reported, contradicting the claim. -/
theorem C3_counterexample :
    ∃ pkt : List Nat,
      createPacket (List.replicate 250 65) (List.replicate 265 0) =
        (Error.OK, pkt, 257) ∧
      (pkt.take 257).getD 255 0 = 1 ∧
      (processBytes 256 ⟨List.replicate 256 0, 0, some (fun _ => Error.OK)⟩
          ((pkt.take 257).set 255 ((pkt.take 257).getD 255 0 ^^^ 1))).2.1 =
        List.replicate 257 Error.OK ∧
      (processBytes 256 ⟨List.replicate 256 0, 0, some (fun _ => Error.OK)⟩
          ((pkt.take 257).set 255 ((pkt.take 257).getD 255 0 ^^^ 1))).2.2 =
        [List.replicate 250 65] := by
  have hc1 : (List.replicate 50 65).foldl crc32Byte 0xFFFFFFFF = 2813396683 := by decide
  have hc2 : (List.replicate 50 65).foldl crc32Byte 2813396683 = 1785217906 := by decide
  have hc3 : (List.replicate 50 65).foldl crc32Byte 1785217906 = 1936258347 := by decide
  have hc4 : (List.replicate 50 65).foldl crc32Byte 1936258347 = 3611607655 := by decide
  have hc5 : (List.replicate 50 65).foldl crc32Byte 3611607655 = 1972795748 := by decide
  have hsplit : List.replicate 250 65 = ((((List.replicate 50 65 ++ List.replicate 50 65) ++
      List.replicate 50 65) ++ List.replicate 50 65) ++ List.replicate 50 65 : List Nat) := by
    rw [← List.replicate_add, ← List.replicate_add, ← List.replicate_add,
      ← List.replicate_add]
  have hcv : crc32_iso_hdlc (List.replicate 250 65) = 2322171547 := by
    rw [crc32_iso_hdlc, hsplit, List.foldl_append, List.foldl_append, List.foldl_append,
      List.foldl_append, hc1, hc2, hc3, hc4, hc5]
    decide
  have hbytes : u32beBytes (crc32_iso_hdlc (List.replicate 250 65)) =
      [138, 105, 134, 155] := by
    rw [hcv]
    decide
  set F : List Nat := List.replicate 250 65 with hF
  set D : List Nat := F ++ u32beBytes (crc32_iso_hdlc F) with hD
  have hFb : ∀ t ∈ F, t < 256 := by
    intro t ht
    rw [hF] at ht
    have := List.eq_of_mem_replicate ht
    omega
  have hDlen : D.length = 254 := by
    rw [hD, List.length_append, u32beBytes_length, hF, List.length_replicate]
  have hDnz : ∀ x ∈ D, x ≠ 0 := by
    intro x hx
    rw [hD] at hx
    rcases List.mem_append.mp hx with h | h
    · rw [hF] at h
      have := List.eq_of_mem_replicate h
      omega
    · rw [hbytes] at h
      simp at h
      rcases h with h | h | h | h <;> omega
  have hspec : cobsSpec D = 255 :: D ++ [1] := by
    have h := cobsSpec_ff_split D [] hDnz hDlen
    rw [List.append_nil] at h
    rw [h]
    rfl
  have hslen : (cobsSpec D).length = 256 := by
    rw [hspec]
    simp [hDlen]
  obtain ⟨pkt, hcp, hplen, htake⟩ := createPacket_spec F (List.replicate 265 0) 250
    (by rw [hF, List.length_replicate]) (by rw [List.length_replicate]; rfl)
  rw [hslen] at hcp htake
  rw [show (256 + 1 : Nat) = 257 from rfl] at hcp htake
  have hE : pkt.take 257 = (255 :: D) ++ [1, 0] := by
    rw [htake, hspec]
    simp
  have hlen255 : (255 :: D).length = 255 := by simp [hDlen]
  have hget : (pkt.take 257).getD 255 0 = 1 := by
    rw [hE]
    have hdl : ((255 :: D) ++ [1, 0]).drop 255 = [1, 0] := by
      have h := List.drop_left (255 :: D) [1, 0]
      rw [hlen255] at h
      exact h
    have := getD_drop ((255 :: D) ++ [1, 0]) 255 0
    rw [hdl] at this
    rw [← this]
    rfl
  have hmod : (pkt.take 257).set 255 ((pkt.take 257).getD 255 0 ^^^ 1) =
      (255 :: D) ++ [0, 0] := by
    rw [hget, hE, List.set_append_right 255 _ (le_of_eq hlen255)]
    rw [hlen255]
    rfl
  have hnzE : ∀ b ∈ 255 :: D, b ≠ 0 := by
    intro b hb
    rcases List.mem_cons.mp hb with h | h
    · omega
    · exact hDnz b h
  have hgff : ghostDec (255 :: D) = some D := by
    have h := ghostDec_ff D [] hDlen
    rw [List.append_nil, ghostDec_nil] at h
    rw [h]
    rfl
  have hcrc : read_u32_at D (D.length - 4) = crc32_iso_hdlc (D.take (D.length - 4)) := by
    rw [hD]
    exact packet_crc_ok F hFb
  obtain ⟨s2, hfeed, hs2i, _, _⟩ := feedEncoded 256
    ⟨List.replicate 256 0, 0, some (fun _ => Error.OK)⟩ (255 :: D) D rfl
    (by simp) (by rw [hlen255]; omega) hnzE (by simp) hgff (by omega) hcrc
  have hDtake : D.take (D.length - 4) = F := by
    rw [hD, hDlen]
    rw [show (254 - 4 : Nat) = 250 from rfl]
    rw [show (250 : Nat) = F.length from by rw [hF, List.length_replicate]]
    exact List.take_left F _
  rw [hDtake] at hfeed
  have hlast : processBytes 256 s2 [0] = (s2, [Error.OK], []) := by
    rw [processBytes, processByte, if_pos rfl, if_pos hs2i, processBytes]
    simp
  have hsplit2 : (255 :: D) ++ [0, 0] = ((255 :: D) ++ [0]) ++ [0] := by
    simp
  have hall := processBytes_append 256 [0] ((255 :: D) ++ [0])
    ⟨List.replicate 256 0, 0, some (fun _ => Error.OK)⟩ s2 s2 _ _ _ _ hfeed hlast
  refine ⟨pkt, ?_, hget, ?_, ?_⟩
  · rw [hcp]
  · rw [hmod, hsplit2, hall]
    simp only [emitPacket]
    rw [hlen255]
    rw [show List.replicate 257 Error.OK =
      (List.replicate 255 Error.OK ++ [Error.OK]) ++ [Error.OK] from by
        rw [← List.replicate_succ' 255, ← List.replicate_succ' 256]]
  · rw [hmod, hsplit2, hall]
    simp [emitPacket]

/-- C7 counterexample: decoding the buffer `0xFF ‖ 254 × 0x01` (a single
complete 254-byte run that is the *final* group) succeeds with decoded length
254, but the claimed formula — encoded length minus one code byte minus one per
complete 254-byte run — gives `255 - 1 - 1 = 253`.  The extra subtracted byte
only exists when the 0xFF group is followed by further data. -/
theorem C7_counterexample :
    (cobsDecodeInPlace (255 :: List.replicate 254 1) 255).map Prod.snd = some 254 ∧
    ffAll (255 :: List.replicate 254 1) = 1 ∧
    255 - 1 - ffAll (255 :: List.replicate 254 1) = 253 ∧ (254 : Nat) ≠ 253 := by
  decide

/-- C1: for every frame `F` with `len(F) ≤ MaxPayloadSize`, `createPacket` into
a buffer of capacity `maxPacketSize(MaxPayloadSize)` succeeds, and feeding the
produced packet bytes one at a time into a second framer (same MaxPacketSize,
with a registered callback returning OK) invokes that callback exactly once
with exactly `F`, every `processByte` call returning `Error.OK`. -/
theorem C1_framer_roundtrip (P : Nat) (F buf0 : List Nat) (f : List Nat → Error)
    (hFb : ∀ t ∈ F, t < 256) (hF : F.length ≤ P)
    (hbuf : buf0.length = maxPacketSize P) (hf : f F = Error.OK) :
    ∃ pkt s2,
      createPacket F buf0 =
        (Error.OK, pkt, (cobsSpec (F ++ u32beBytes (crc32_iso_hdlc F))).length + 1) ∧
      processBytes (maxPacketSize P)
          ⟨List.replicate (maxPacketSize P) 0, 0, some f⟩
          (pkt.take ((cobsSpec (F ++ u32beBytes (crc32_iso_hdlc F))).length + 1)) =
        (s2, List.replicate
          ((cobsSpec (F ++ u32beBytes (crc32_iso_hdlc F))).length + 1) Error.OK,
         [F]) := by
  obtain ⟨pkt, hcp, hplen, htake⟩ := createPacket_spec F buf0 P hF hbuf
  have hDlen : (F ++ u32beBytes (crc32_iso_hdlc F)).length = F.length + 4 := by
    rw [List.length_append, u32beBytes_length]
  have hcrc := packet_crc_ok F hFb
  have hfit : (cobsSpec (F ++ u32beBytes (crc32_iso_hdlc F))).length ≤ maxPacketSize P := by
    have h1 := cobsSpec_length_le (F ++ u32beBytes (crc32_iso_hdlc F))
    have h2 := maxPacketSize_ge P (F ++ u32beBytes (crc32_iso_hdlc F)).length (by omega)
    omega
  obtain ⟨s2, hfeed, _, _, _⟩ := feedPacket (maxPacketSize P)
    ⟨List.replicate (maxPacketSize P) 0, 0, some f⟩
    (F ++ u32beBytes (crc32_iso_hdlc F)) rfl (by simp) hfit (by omega) hcrc
  have hDtake : (F ++ u32beBytes (crc32_iso_hdlc F)).take
      ((F ++ u32beBytes (crc32_iso_hdlc F)).length - 4) = F := by
    rw [hDlen, show F.length + 4 - 4 = F.length from by omega]
    exact List.take_left F _
  rw [hDtake] at hfeed
  refine ⟨pkt, s2, hcp, ?_⟩
  rw [htake, hfeed]
  simp only [emitPacket]
  rw [hf, ← List.replicate_succ']

/-- C1 witness. -/
theorem C1_witness :
    ∃ pkt s2,
      createPacket [7] (List.replicate (maxPacketSize 1) 0) =
        (Error.OK, pkt,
          (cobsSpec ([7] ++ u32beBytes (crc32_iso_hdlc [7]))).length + 1) ∧
      processBytes (maxPacketSize 1)
          ⟨List.replicate (maxPacketSize 1) 0, 0, some (fun _ => Error.OK)⟩
          (pkt.take ((cobsSpec ([7] ++ u32beBytes (crc32_iso_hdlc [7]))).length + 1)) =
        (s2, List.replicate
          ((cobsSpec ([7] ++ u32beBytes (crc32_iso_hdlc [7]))).length + 1) Error.OK,
         [[7]]) :=
  C1_framer_roundtrip 1 [7] (List.replicate (maxPacketSize 1) 0) (fun _ => Error.OK)
    (by decide) (by decide) (by simp) rfl

/-- C2: for every byte sequence `S`, encoding with the incremental `CobsEncoder`
(`begin`, `put` each byte, `end`, via `cobsEncode`) into a buffer of sufficient
capacity succeeds, every byte of the encoded output is non-zero, and
`cobsDecodeInPlace` on the encoded output succeeds with decoded bytes equal to
`S`. -/
theorem C2_cobs_roundtrip (S buf : List Nat)
    (hcap : S.length + S.length / 254 + 2 ≤ buf.length) :
    ∃ out, cobsEncode S buf = some (out, (cobsSpec S).length) ∧
      (∀ x ∈ out.take (cobsSpec S).length, x ≠ 0) ∧
      ∃ buf2, cobsDecodeInPlace out (cobsSpec S).length = some (buf2, S.length) ∧
        buf2.take S.length = S := by
  have hlen := cobsSpec_length_le S
  have hcap' : (cobsSpec S).length ≤ buf.length := by omega
  obtain ⟨out, henc, holen, htake⟩ := cobsEncode2_spec S [] buf
    (by rw [List.append_nil]; exact hcap')
  rw [List.append_nil] at henc htake
  refine ⟨out, ?_, ?_, ?_⟩
  · rw [cobsEncode]
    exact henc
  · rw [htake]
    exact cobsSpec_nonzero S
  · have hg : ghostDec (out.take (cobsSpec S).length) = some S := by
      rw [htake]
      exact ghostDec_cobsSpec S
    obtain ⟨buf2, hdec, hlen2, htake2⟩ :=
      (cobsDecodeInPlace_ghost out (cobsSpec S).length (by omega)).2 S hg
    exact ⟨buf2, hdec, htake2⟩

/-- C2 witness. -/
theorem C2_witness :
    ∃ out, cobsEncode [1, 0, 2] (List.replicate 6 0) =
        some (out, (cobsSpec [1, 0, 2]).length) ∧
      (∀ x ∈ out.take (cobsSpec [1, 0, 2]).length, x ≠ 0) ∧
      ∃ buf2, cobsDecodeInPlace out (cobsSpec [1, 0, 2]).length =
          some (buf2, ([1, 0, 2] : List Nat).length) ∧
        buf2.take ([1, 0, 2] : List Nat).length = [1, 0, 2] :=
  C2_cobs_roundtrip [1, 0, 2] (List.replicate 6 0) (by decide)

/-- C3 (amended): the original claim is refuted by `C3_counterexample`; the
property that does hold is CRC tamper detection for the protected content:
for every frame `F` and every single-byte modification of the CRC-protected
content `D = F ‖ crc32(F)` — any index `q < len(D)` and replacement byte
`b ≠ D[q]` — feeding the COBS packet of the modified content into a framer
yields `OK` for every body byte, `CrcMismatch` at the delimiter, and the
packet callback is never invoked. -/
theorem C3_crc_tamper_detected (M : Nat) (s : FramerState) (F : List Nat) (q b : Nat)
    (hFbytes : ∀ t ∈ F, t < 256) (hb : b < 256) (hq : q < F.length + 4)
    (hne : b ≠ (F ++ u32beBytes (crc32_iso_hdlc F)).getD q 0)
    (hs : s.rxIndex = 0) (hlen : s.rxBuffer.length = M)
    (hfit : (cobsSpec ((F ++ u32beBytes (crc32_iso_hdlc F)).set q b)).length ≤ M) :
    ∃ s2, processBytes M s
        (cobsSpec ((F ++ u32beBytes (crc32_iso_hdlc F)).set q b) ++ [0]) =
      (s2, List.replicate
          (cobsSpec ((F ++ u32beBytes (crc32_iso_hdlc F)).set q b)).length Error.OK ++
        [Error.CrcMismatch], []) := by
  have hD'len : ((F ++ u32beBytes (crc32_iso_hdlc F)).set q b).length = F.length + 4 := by
    rw [List.length_set, List.length_append, u32beBytes_length]
  obtain ⟨s2, hfeed, _, _, _⟩ := feedBadPacket M s
    ((F ++ u32beBytes (crc32_iso_hdlc F)).set q b) hs hlen hfit (by omega)
    (tamper_crc_ne F q b hFbytes hb hq hne)
  exact ⟨s2, hfeed⟩

/-- C3 witness (for the amended theorem). -/
theorem C3_witness :
    ∃ s2, processBytes 6 ⟨List.replicate 6 0, 0, some (fun _ => Error.OK)⟩
        (cobsSpec (([] ++ u32beBytes (crc32_iso_hdlc [])).set 0 1) ++ [0]) =
      (s2, List.replicate
          (cobsSpec (([] ++ u32beBytes (crc32_iso_hdlc [])).set 0 1)).length Error.OK ++
        [Error.CrcMismatch], []) :=
  C3_crc_tamper_detected 6 ⟨List.replicate 6 0, 0, some (fun _ => Error.OK)⟩ [] 0 1
    (by decide) (by decide) (by decide) (by decide) rfl (by simp) (by decide)

/-- C4: after any `processByte` error, the framer's receive index is reset (it
keeps accepting bytes), and the next valid packet fed to the same framer
produces exactly one callback invocation carrying the correct frame. -/
theorem C4_resynchronization (M : Nat) (s s' : FramerState) (b : Nat) (e : Error)
    (ev : List (List Nat)) (f : List Nat → Error) (F : List Nat)
    (herr : processByte M s b = (s', e, ev)) (hne : e ≠ Error.OK)
    (hlen : s.rxBuffer.length = M) (hcb : s.cb = some f)
    (hFb : ∀ t ∈ F, t < 256)
    (hfit : (cobsSpec (F ++ u32beBytes (crc32_iso_hdlc F))).length ≤ M) :
    s'.rxIndex = 0 ∧
    ∃ s2, processBytes M s' (cobsSpec (F ++ u32beBytes (crc32_iso_hdlc F)) ++ [0]) =
      (s2, List.replicate (cobsSpec (F ++ u32beBytes (crc32_iso_hdlc F))).length
          Error.OK ++ [f F],
       [F]) := by
  have hps := processByte_cb_len M s b
  have hreset : s'.rxIndex = 0 := by
    have h := processByte_reset M s b (by rw [herr]; exact hne)
    rw [herr] at h
    exact h
  have hcb' : s'.cb = some f := by
    have h := hps.1
    rw [herr] at h
    rw [h, hcb]
  have hlen' : s'.rxBuffer.length = M := by
    have h := hps.2
    rw [herr] at h
    rw [h, hlen]
  have hDlen : (F ++ u32beBytes (crc32_iso_hdlc F)).length = F.length + 4 := by
    rw [List.length_append, u32beBytes_length]
  obtain ⟨s2, hfeed, _, _, _⟩ := feedPacket M s' (F ++ u32beBytes (crc32_iso_hdlc F))
    hreset hlen' hfit (by omega) (packet_crc_ok F hFb)
  have hDtake : (F ++ u32beBytes (crc32_iso_hdlc F)).take
      ((F ++ u32beBytes (crc32_iso_hdlc F)).length - 4) = F := by
    rw [hDlen, show F.length + 4 - 4 = F.length from by omega]
    exact List.take_left F _
  rw [hDtake] at hfeed
  refine ⟨hreset, s2, ?_⟩
  rw [hfeed]
  simp only [emitPacket, hcb']

/-- C4 witness. -/
theorem C4_witness :
    FramerState.rxIndex ⟨[5, 0, 0, 0, 0, 0, 0, 0], 0, some (fun _ => Error.OK)⟩ = 0 ∧
    ∃ s2, processBytes 8 ⟨[5, 0, 0, 0, 0, 0, 0, 0], 0, some (fun _ => Error.OK)⟩
        (cobsSpec ([] ++ u32beBytes (crc32_iso_hdlc [])) ++ [0]) =
      (s2, List.replicate (cobsSpec ([] ++ u32beBytes (crc32_iso_hdlc []))).length
          Error.OK ++ [(fun _ => Error.OK) ([] : List Nat)],
       [([] : List Nat)]) :=
  C4_resynchronization 8 ⟨[5, 0, 0, 0, 0, 0, 0, 0], 1, some (fun _ => Error.OK)⟩
    ⟨[5, 0, 0, 0, 0, 0, 0, 0], 0, some (fun _ => Error.OK)⟩ 0 Error.CobsDecodeFailed
    [] (fun _ => Error.OK) [] rfl (by decide) (by decide) rfl (by decide) (by decide)

/-- C7 (amended): the original formula is refuted by `C7_counterexample`; the
correct formula subtracts one byte only for each complete 254-byte run that is
followed by further encoded data (a final 0xFF group emits no trailing zero and
also saves no byte): on success, decoded length = encoded length − 1 −
`ffNF` of the encoded bytes. -/
theorem C7_decoded_length (buf : List Nat) (encLen : Nat) (buf2 : List Nat) (k : Nat)
    (h1 : 1 ≤ encLen) (h2 : encLen ≤ buf.length)
    (hdec : cobsDecodeInPlace buf encLen = some (buf2, k)) :
    k = encLen - 1 - ffNF (buf.take encLen) :=
  cobsDecodeInPlace_length_formula buf encLen buf2 k h1 h2 hdec

/-- C7 witness (for the amended theorem). -/
theorem C7_witness : (0 : Nat) = 1 - 1 - ffNF (List.take 1 [1, 5]) :=
  C7_decoded_length [1, 5] 1 [1, 5] 0 (by decide) (by decide) (by decide)

/-- C9: throughout every execution of `cobsDecodeInPlace` (instrumented by
`decodeWrites`/`decodeStates`, which mirror `decodeLoop` exactly), every byte
written to the shared buffer lands at a position strictly below the number of
encoded bytes already consumed at the moment of the write, and the write index
never exceeds the read index at any loop head; input and output can therefore
share one buffer. -/
theorem C9_in_place_safety (buf : List Nat) (encLen : Nat) :
    (∀ pr ∈ decodeWrites encLen buf encLen 0 0, pr.1 < pr.2) ∧
    (∀ st ∈ decodeStates encLen buf encLen 0 0, st.2 ≤ st.1) :=
  ⟨decodeWrites_safe encLen buf encLen 0 0 (le_refl 0),
   decodeStates_safe encLen buf encLen 0 0 (le_refl 0)⟩

/-- C9 witness. -/
theorem C9_witness : (0, 1) ∈ decodeWrites 2 [2, 7] 2 0 0 ∧ (0 : Nat) < 1 :=
  ⟨by decide, (C9_in_place_safety [2, 7] 2).1 (0, 1) (by decide)⟩

/-- C10: a framer whose callback was never registered accepts a complete
well-formed packet, returns `OK` at the delimiter, and silently discards the
frame: every byte's result is `OK` and no callback invocation occurs. -/
theorem C10_silent_discard (M : Nat) (s : FramerState) (F : List Nat)
    (hcb : s.cb = none) (hs : s.rxIndex = 0) (hlen : s.rxBuffer.length = M)
    (hFb : ∀ t ∈ F, t < 256)
    (hfit : (cobsSpec (F ++ u32beBytes (crc32_iso_hdlc F))).length ≤ M) :
    ∃ s2, processBytes M s (cobsSpec (F ++ u32beBytes (crc32_iso_hdlc F)) ++ [0]) =
      (s2, List.replicate
        ((cobsSpec (F ++ u32beBytes (crc32_iso_hdlc F))).length + 1) Error.OK,
       []) := by
  have hDlen : (F ++ u32beBytes (crc32_iso_hdlc F)).length = F.length + 4 := by
    rw [List.length_append, u32beBytes_length]
  obtain ⟨s2, hfeed, _, _, _⟩ := feedPacket M s (F ++ u32beBytes (crc32_iso_hdlc F))
    hs hlen hfit (by omega) (packet_crc_ok F hFb)
  refine ⟨s2, ?_⟩
  rw [hfeed]
  simp only [emitPacket, hcb]
  rw [← List.replicate_succ']

/-- C10 witness. -/
theorem C10_witness :
    ∃ s2, processBytes 5 ⟨List.replicate 5 0, 0, none⟩
        (cobsSpec ([] ++ u32beBytes (crc32_iso_hdlc [])) ++ [0]) =
      (s2, List.replicate
        ((cobsSpec ([] ++ u32beBytes (crc32_iso_hdlc []))).length + 1) Error.OK,
       []) :=
  C10_silent_discard 5 ⟨List.replicate 5 0, 0, none⟩ [] rfl rfl (by simp)
    (by decide) (by decide)

/-- C5: `Router::onPacket` checks, in order: frame length ≥ 8 (else
`FrameHeaderSize`), version byte = expectedVersion (else `MsgVersionMismatch`),
frame length = 8 + big-endian `len` field (else `MsgLengthMismatch`), a slot
matching `msg_id` (else `MsgIdUnknown`) — invoking no handler in any of those
cases; otherwise it invokes the matching slot exactly once with the payload
sub-span and `msg_hash` and returns the handler's result; the typed-handler
trampoline `memberThunkMsg` returns `MsgVersionMismatch` on a schema-hash
mismatch and `InvalidParameter` on decode failure, in both cases without
calling the user handler. -/
theorem C5_onPacket_dispatch {κ μ : Type} (invoke : κ → List Nat → Nat → Error)
    (v : Nat) (handlers : List (HSlot κ)) (frame : List Nat)
    (kMsgHash : Nat) (decode : List Nat → Option μ) (handler : μ → Error)
    (payload : List Nat) (msgHash : Nat) :
    (frame.length < 8 → onPacket invoke v handlers frame = (Error.FrameHeaderSize, [])) ∧
    (8 ≤ frame.length → frame.getD 0 0 ≠ v →
      onPacket invoke v handlers frame = (Error.MsgVersionMismatch, [])) ∧
    (8 ≤ frame.length → frame.getD 0 0 = v →
      frame.length ≠ 8 + read_u16_at frame 6 →
      onPacket invoke v handlers frame = (Error.MsgLengthMismatch, [])) ∧
    (8 ≤ frame.length → frame.getD 0 0 = v →
      frame.length = 8 + read_u16_at frame 6 →
      findSlot handlers (frame.getD 1 0) = none →
      onPacket invoke v handlers frame = (Error.MsgIdUnknown, [])) ∧
    (∀ slot k, 8 ≤ frame.length → frame.getD 0 0 = v →
      frame.length = 8 + read_u16_at frame 6 →
      findSlot handlers (frame.getD 1 0) = some slot → slot.cb = some k →
      onPacket invoke v handlers frame =
        (invoke k (frame.drop 8) (read_u32_at frame 2),
         [(k, frame.drop 8, read_u32_at frame 2)])) ∧
    (msgHash ≠ kMsgHash →
      memberThunkMsg kMsgHash decode handler payload msgHash =
        (Error.MsgVersionMismatch, none)) ∧
    (msgHash = kMsgHash → decode payload = none →
      memberThunkMsg kMsgHash decode handler payload msgHash =
        (Error.InvalidParameter, none)) ∧
    (∀ m, msgHash = kMsgHash → decode payload = some m →
      memberThunkMsg kMsgHash decode handler payload msgHash =
        (handler m, some m)) := by
  refine ⟨?_, ?_, ?_, ?_, ?_, ?_, ?_, ?_⟩
  · intro h
    rw [onPacket, if_pos (show frame.length < kFrameHeaderSize from h)]
  · intro h1 h2
    rw [onPacket,
      if_neg (show ¬ frame.length < kFrameHeaderSize from by
        rw [kFrameHeaderSize]; omega),
      if_pos h2]
  · intro h1 h2 h3
    rw [onPacket,
      if_neg (show ¬ frame.length < kFrameHeaderSize from by
        rw [kFrameHeaderSize]; omega),
      if_neg (show ¬ frame.getD 0 0 ≠ v from fun hn => hn h2)]
    simp only
    rw [if_pos (show frame.length ≠ kFrameHeaderSize + read_u16_at frame 6 from h3)]
  · intro h1 h2 h3 h4
    rw [onPacket,
      if_neg (show ¬ frame.length < kFrameHeaderSize from by
        rw [kFrameHeaderSize]; omega),
      if_neg (show ¬ frame.getD 0 0 ≠ v from fun hn => hn h2)]
    simp only
    rw [if_neg (show ¬ frame.length ≠ kFrameHeaderSize + read_u16_at frame 6 from
      fun hn => hn h3)]
    simp only [h4]
  · intro slot k h1 h2 h3 h4 h5
    rw [onPacket,
      if_neg (show ¬ frame.length < kFrameHeaderSize from by
        rw [kFrameHeaderSize]; omega),
      if_neg (show ¬ frame.getD 0 0 ≠ v from fun hn => hn h2)]
    simp only
    rw [if_neg (show ¬ frame.length ≠ kFrameHeaderSize + read_u16_at frame 6 from
      fun hn => hn h3)]
    simp only [h4, h5]
    rfl
  · intro h
    rw [memberThunkMsg, if_pos h]
  · intro h1 h2
    rw [memberThunkMsg, if_neg (fun hn => hn h1)]
    simp only [h2]
  · intro m h1 h2
    rw [memberThunkMsg, if_neg (fun hn => hn h1)]
    simp only [h2]

/-- C5 witness. -/
theorem C5_witness :
    onPacket (fun (_ : Unit) _ _ => Error.OK) 1
        [⟨true, 7, some ()⟩] [1, 7, 0, 0, 0, 0, 0, 2, 9, 9] =
      (Error.OK, [((), [9, 9], 0)]) ∧
    memberThunkMsg 5 (fun (_ : List Nat) => some ()) (fun (_ : Unit) => Error.OK)
        [9, 9] 4 = (Error.MsgVersionMismatch, none) := by
  constructor
  · exact (C5_onPacket_dispatch (fun (_ : Unit) _ _ => Error.OK) 1
      [⟨true, 7, some ()⟩] [1, 7, 0, 0, 0, 0, 0, 2, 9, 9] 5
      (fun _ => some ()) (fun _ => Error.OK) [9, 9] 4).2.2.2.2.1
      ⟨true, 7, some ()⟩ () (by decide) (by decide) (by decide) rfl rfl
  · exact (C5_onPacket_dispatch (fun (_ : Unit) _ _ => Error.OK) 1
      [⟨true, 7, some ()⟩] [1, 7, 0, 0, 0, 0, 0, 2, 9, 9] 5
      (fun _ => some ()) (fun _ => Error.OK) [9, 9] 4).2.2.2.2.2.1
      (by decide)

/-- C6: `Router::registerHandler` (two passes: update-if-present, then
insert-into-first-free) preserves the at-most-one-used-slot-per-id invariant;
if a used slot with the given id exists it is overwritten in place (table
shape unchanged) and `OK` is returned; if the id is new and a free slot exists,
`OK` is returned; if all slots are used and the id is new, `InvalidParameter`
is returned and the table is unchanged. -/
theorem C6_register_invariant {κ : Type} (handlers : List (HSlot κ)) (id : Nat)
    (k : κ) (hinv : routerInv handlers) :
    routerInv (registerHandler handlers id k).1 ∧
    ((∃ t ∈ handlers, t.used = true ∧ t.msgId = id) →
      (registerHandler handlers id k).2 = Error.OK ∧
      (registerHandler handlers id k).1.map (fun t => (t.used, t.msgId)) =
        handlers.map (fun t => (t.used, t.msgId))) ∧
    ((∀ t ∈ handlers, ¬(t.used = true ∧ t.msgId = id)) →
      (∃ t ∈ handlers, t.used = false) →
      (registerHandler handlers id k).2 = Error.OK) ∧
    ((∀ t ∈ handlers, t.used = true) → (∀ t ∈ handlers, ¬ t.msgId = id) →
      registerHandler handlers id k = (handlers, Error.InvalidParameter)) := by
  rcases hup : updatePass handlers id k with _ | h'
  · rcases hins : insertPass handlers id k with _ | h''
    · have hres : registerHandler handlers id k = (handlers, Error.InvalidParameter) := by
        rw [registerHandler, hup, hins]
      rw [hres]
      refine ⟨hinv, ?_, ?_, fun _ _ => rfl⟩
      · intro hex
        obtain ⟨t, ht, hu, hm⟩ := hex
        exact absurd ⟨hu, hm⟩ ((updatePass_none handlers id k).mp hup t ht)
      · intro _ hfree
        obtain ⟨h2, hins2⟩ := insertPass_some_of_free handlers id k hfree
        rw [hins2] at hins
        exact absurd hins (by simp)
    · have hres : registerHandler handlers id k = (h'', Error.OK) := by
        rw [registerHandler, hup, hins]
      rw [hres]
      refine ⟨?_, ?_, fun _ _ => rfl, ?_⟩
      · exact insertPass_inv handlers h'' id k hins
          ((updatePass_none handlers id k).mp hup) hinv
      · intro hex
        obtain ⟨t, ht, hu, hm⟩ := hex
        exact absurd ⟨hu, hm⟩ ((updatePass_none handlers id k).mp hup t ht)
      · intro hall _
        have : insertPass handlers id k = none := (insertPass_none handlers id k).mpr hall
        rw [this] at hins
        exact absurd hins (by simp)
  · have hres : registerHandler handlers id k = (h', Error.OK) := by
      rw [registerHandler, hup]
    rw [hres]
    have hshape := updatePass_shape handlers h' id k hup
    refine ⟨routerInv_of_map_eq handlers h' hshape hinv, fun _ => ⟨rfl, hshape⟩, ?_, ?_⟩
    · intro hno _
      have hupn : updatePass handlers id k = none :=
        (updatePass_none handlers id k).mpr hno
      exact absurd (hupn.symm.trans hup) (by simp)
    · intro _ hnoid
      have hupn : updatePass handlers id k = none :=
        (updatePass_none handlers id k).mpr (fun t ht hc => hnoid t ht hc.2)
      exact absurd (hupn.symm.trans hup) (by simp)

/-- C6 witness. -/
theorem C6_witness :
    routerInv (registerHandler [⟨true, 3, some 0⟩, ⟨false, 0, none⟩] 3 (9 : Nat)).1 ∧
    (registerHandler [⟨true, 3, some 0⟩, ⟨false, 0, none⟩] 3 (9 : Nat)).2 =
      Error.OK := by
  have hinv : routerInv ([⟨true, 3, some 0⟩, ⟨false, 0, none⟩] : List (HSlot Nat)) := by
    rw [routerInv]
    refine List.Pairwise.cons ?_ (List.Pairwise.cons (by simp) List.Pairwise.nil)
    intro b hb
    simp at hb
    rw [hb]
    intro _ hfalse
    simp at hfalse
  have h := C6_register_invariant [⟨true, 3, some 0⟩, ⟨false, 0, none⟩] 3 (9 : Nat) hinv
  exact ⟨h.1, (h.2.1 ⟨⟨true, 3, some 0⟩, by simp, rfl, rfl⟩).1⟩

/-- C8 witness. -/
theorem C8_witness :
    (publishTyped (fun _ => true) 1 ⟨List.replicate 20 0, List.replicate 30 0, true⟩
        3 5 (some [1, 2])).2.1 =
      (publish (fun _ => true) 1 ⟨List.replicate 20 0, List.replicate 30 0, true⟩
        3 5 [1, 2]).2.1 ∧
    (publishTyped (fun _ => true) 1 ⟨List.replicate 20 0, List.replicate 30 0, true⟩
        3 5 (some [1, 2])).2.2 =
      (publish (fun _ => true) 1 ⟨List.replicate 20 0, List.replicate 30 0, true⟩
        3 5 [1, 2]).2.2 :=
  C8_publish_typed_aliasing (fun _ => true) 1
    ⟨List.replicate 20 0, List.replicate 30 0, true⟩ 3 5 [1, 2] (by simp)

end umsg